import Mathlib

/-!
Verification development for the lexe-core privacy pipeline.

Texts are modelled as lists of characters (`Text`).  Python string
operations (slicing, `in`, `str.lower`, `str.strip`, the specific regular
expressions used by the pipeline) are embedded as executable Lean functions
on `Text`.  External library calls (Unicode NFC normalization via
`unicodedata`, `math.exp`) are taken as explicit function parameters where a
theorem depends on them; SHA-256 (`hashlib`) is implemented concretely.
-/

namespace LexeCore

/-- Texts are lists of characters; indices are character offsets, matching
Python string indexing. -/
abbrev Text := List Char

/-- Decidable test that `sub` is a prefix of `hay` (character lists). -/
def isPrefixB : Text → Text → Bool
  | [], _ => true
  | _ :: _, [] => false
  | a :: as, b :: bs => a == b && isPrefixB as bs

/-- Models the Python substring test `sub in hay`. -/
def containsSub (hay sub : Text) : Bool :=
  match hay with
  | [] => isPrefixB sub []
  | _ :: rest => isPrefixB sub hay || containsSub rest sub

/-- Models Python `str.lower` character-wise (faithful on the ASCII range,
which covers every keyword and every concrete input in this development). -/
def pyLower (t : Text) : Text := t.map Char.toLower

/-- Models Python `str.upper` character-wise (ASCII range). -/
def pyUpper (t : Text) : Text := t.map Char.toUpper

/-- Models the character set matched by Python `str.isspace` and by the
regex class `\s` on `str` (the `Py_UNICODE_ISSPACE` table). -/
def isPyWs (c : Char) : Bool :=
  let n := c.toNat
  n == 32 || (9 ≤ n && n ≤ 13) || (28 ≤ n && n ≤ 31) || n == 133 ||
  n == 160 || n == 5760 || (8192 ≤ n && n ≤ 8202) || n == 8232 ||
  n == 8233 || n == 8239 || n == 8287 || n == 12288

/-- Models Python `str.lstrip()` (drop leading whitespace). -/
def lstrip (t : Text) : Text := t.dropWhile isPyWs

/-- Models Python `str.rstrip()` (drop trailing whitespace). -/
def rstrip (t : Text) : Text := (t.reverse.dropWhile isPyWs).reverse

/-- Models Python `str.strip()`. -/
def pyStrip (t : Text) : Text := rstrip (lstrip t)

/-- Fuel-driven worker for `removeAll`; the fuel (initially the input
length) only makes the recursion structural, every step consumes at least
one input character so the fuel never runs out. -/
def removeAllF (pat : Text) : Nat → Text → Text
  | 0, t => t
  | _, [] => []
  | fuel + 1, c :: rest =>
    if pat ≠ [] ∧ isPrefixB pat (c :: rest) then
      removeAllF pat fuel (List.drop pat.length (c :: rest))
    else
      c :: removeAllF pat fuel rest

/-- Models Python `str.replace(pat, '')`: delete every occurrence of `pat`,
scanning left to right over non-overlapping matches. -/
def removeAll (pat t : Text) : Text := removeAllF pat t.length t

-- ===========================================================================
-- Fiscal-code validators (filters.validate_italian_fiscal_code and
-- ItalianCFRecognizer._validate_cf_checksum / validate_result)
-- ===========================================================================

/-- Models `odd_digit_values = [1, 0, 5, 7, 9, 13, 15, 17, 19, 21]` from
`filters.validate_italian_fiscal_code`. -/
def odd_digit_values : List Nat := [1, 0, 5, 7, 9, 13, 15, 17, 19, 21]

/-- Models `odd_chars = "BAFHJNPRTVCESULDGIMOQKWZYX"`. -/
def odd_chars : Text := "BAFHJNPRTVCESULDGIMOQKWZYX".toList

/-- Models `even_chars = "ABCDEFGHIJKLMNOPQRSTUVWXYZ"`. -/
def even_chars : Text := "ABCDEFGHIJKLMNOPQRSTUVWXYZ".toList

/-- Models `check_chars = "ABCDEFGHIJKLMNOPQRSTUVWXYZ"`. -/
def check_chars : Text := "ABCDEFGHIJKLMNOPQRSTUVWXYZ".toList

/-- Index of a character in a character list, models Python `str.index`
(the out-of-range case, which `filters.py` guards away by its shape check,
is mapped to the list length like `List.indexOf`). -/
def charIndex (s : Text) (c : Char) : Nat := s.indexOf c

/-- Upper-case A-Z test, models the regex class `[A-Z]`. -/
def isUpperAZ (c : Char) : Bool := 'A' ≤ c && c ≤ 'Z'

/-- Character classes of the anchored pattern
`[A-Z]{6}[0-9]{2}[A-Z][0-9]{2}[A-Z][0-9]{3}[A-Z]` position by position. -/
def cfClasses : List (Char → Bool) :=
  [isUpperAZ, isUpperAZ, isUpperAZ, isUpperAZ, isUpperAZ, isUpperAZ,
   Char.isDigit, Char.isDigit, isUpperAZ, Char.isDigit, Char.isDigit,
   isUpperAZ, Char.isDigit, Char.isDigit, Char.isDigit, isUpperAZ]

/-- Models the `re.match` shape test in `validate_italian_fiscal_code`
(anchored match of a 16-character string against `cfClasses`). -/
def cfShape (cf : Text) : Bool :=
  cf.length == 16 && (cfClasses.zip cf).all fun pc => pc.1 pc.2

/-- Models the checksum loop of `filters.validate_italian_fiscal_code`:
0-indexed even `i` ("odd position") uses `odd_digit_values` for digits and
`odd_chars.index` for letters; 0-indexed odd `i` uses the digit value and
`even_chars.index`. -/
def cfSumFilters : Nat → Text → Nat
  | _, [] => 0
  | i, c :: rest =>
    (if i % 2 == 0 then
      (if c.isDigit then odd_digit_values.getD (c.toNat - 48) 0
       else charIndex odd_chars c)
     else
      (if c.isDigit then c.toNat - 48 else charIndex even_chars c)) +
    cfSumFilters (i + 1) rest

/-- Models `filters.validate_italian_fiscal_code`: upper-case and strip,
check length 16, check the regex shape, then compare the computed check
letter with character 16. -/
def validate_italian_fiscal_code (cf0 : Text) : Bool :=
  let cf := pyStrip (pyUpper cf0)
  if cf.length ≠ 16 then false
  else if ¬ cfShape cf then false
  else
    let total := cfSumFilters 0 (cf.take 15)
    check_chars.getD (total % 26) ' ' == cf.getD 15 ' '

/-- Models `ItalianCFRecognizer.ODD_MAP` (lookup defaulting to 0 like
`dict.get(char, 0)`). -/
def ODD_MAP (c : Char) : Nat :=
  match c with
  | '0' => 1 | '1' => 0 | '2' => 5 | '3' => 7 | '4' => 9
  | '5' => 13 | '6' => 15 | '7' => 17 | '8' => 19 | '9' => 21
  | 'A' => 1 | 'B' => 0 | 'C' => 5 | 'D' => 7 | 'E' => 9
  | 'F' => 13 | 'G' => 15 | 'H' => 17 | 'I' => 19 | 'J' => 21
  | 'K' => 2 | 'L' => 4 | 'M' => 18 | 'N' => 20 | 'O' => 11
  | 'P' => 3 | 'Q' => 6 | 'R' => 8 | 'S' => 12 | 'T' => 14
  | 'U' => 16 | 'V' => 10 | 'W' => 22 | 'X' => 25 | 'Y' => 24
  | 'Z' => 23
  | _ => 0

/-- Models `ItalianCFRecognizer.EVEN_MAP` (lookup defaulting to 0). -/
def EVEN_MAP (c : Char) : Nat :=
  if c.isDigit then c.toNat - 48
  else if isUpperAZ c then c.toNat - 65
  else 0

/-- Models `ItalianCFRecognizer._validate_cf_checksum`. -/
def validate_cf_checksum (cf : Text) : Bool :=
  if cf.length ≠ 16 then false
  else
    let total := (cfRecSum 0 (cf.take 15))
    cf.getD 15 ' ' == check_chars.getD (total % 26) ' '
where
  cfRecSum : Nat → Text → Nat
    | _, [] => 0
    | i, c :: rest =>
      (if i % 2 == 0 then ODD_MAP c else EVEN_MAP c) + cfRecSum (i + 1) rest

/-- Models `ItalianCFRecognizer.validate_result` (upper-cases, then runs the
checksum). -/
def cfValidateResult (s : Text) : Bool := validate_cf_checksum (pyUpper s)

-- ===========================================================================
-- VAT validators (filters.validate_italian_vat and
-- ItalianPIVARecognizer.validate_result)
-- ===========================================================================

/-- Luhn-variant sum shared verbatim by `filters.validate_italian_vat` and
`ItalianPIVARecognizer._validate_piva_checksum`: both double the digit at
0-indexed odd positions and fold the carry. -/
def luhnSum : Nat → Text → Nat
  | _, [] => 0
  | i, c :: rest =>
    let n := c.toNat - 48
    (if i % 2 == 1 then
      (let d := 2 * n
       if d > 9 then d / 10 + d % 10 else d)
     else n) + luhnSum (i + 1) rest

/-- Models `filters.validate_italian_vat`: strip, delete `IT`/`it`
sub-strings, require 11 digits, compare the Luhn check digit.  Note the
source performs no leading-zero test. -/
def validate_italian_vat (piva0 : Text) : Bool :=
  let piva := removeAll "it".toList (removeAll "IT".toList (pyStrip piva0))
  if piva.length ≠ 11 then false
  else if ¬ piva.all Char.isDigit then false
  else
    let total := luhnSum 0 (piva.take 10)
    (10 - total % 10) % 10 == (piva.getD 10 '0').toNat - 48

/-- Models `ItalianPIVARecognizer._validate_piva_checksum`. -/
def pivaChecksum (piva : Text) : Bool :=
  if piva.length ≠ 11 ∨ ¬ piva.all Char.isDigit then false
  else
    let total := luhnSum 0 (piva.take 10)
    (piva.getD 10 '0').toNat - 48 == (10 - total % 10) % 10

/-- Models `ItalianPIVARecognizer.validate_result`; `none` models the
`IndexError` that `pattern_text[0]` raises on an empty string. -/
def pivaValidateResult (s : Text) : Option Bool :=
  match s with
  | [] => none
  | c :: _ => some (if c = '0' then false else pivaChecksum s)

-- ===========================================================================
-- Context detection (filters.detect_context)
-- ===========================================================================

/-- Models the `DocumentType` enumeration of `filters.py`. -/
inductive DocumentType where
  | SENTENZA | CONTRATTO | ATTO | VERBALE | PARERE | RICORSO | CITAZIONE
  | UNKNOWN
deriving DecidableEq, Repr

/-- Models `filters.DocumentContext`; the court-name regex extraction is not
modelled (no claim refers to it), the remaining fields are. -/
structure DocumentContext where
  document_type : DocumentType
  jurisdiction : Option Text
  confidence : ℚ
deriving DecidableEq, Repr

/-- Keyword test used by `detect_context`:
`any(keyword in sample for keyword in [...])`. -/
def anyKeyword (sample : Text) (kws : List Text) : Bool :=
  kws.any fun kw => containsSub sample kw

/-- Models `filters.detect_context`: lower-case the first `maxChars`
characters, pick the document type by the priority keyword chain, infer the
jurisdiction by the `if/elif` substring chain. -/
def detect_context (maxChars : Nat) (text : Text) : DocumentContext :=
  let sample := pyLower (text.take maxChars)
  let tc : DocumentType × ℚ :=
    if anyKeyword sample (["sentenza", "corte", "tribunale", "giudice"].map String.toList) then
      (DocumentType.SENTENZA, 9/10)
    else if anyKeyword sample (["contratto", "accordo", "tra le parti"].map String.toList) then
      (DocumentType.CONTRATTO, 9/10)
    else if anyKeyword sample (["atto", "notaio", "rogito"].map String.toList) then
      (DocumentType.ATTO, 8/10)
    else if anyKeyword sample (["verbale", "assemblea", "seduta"].map String.toList) then
      (DocumentType.VERBALE, 8/10)
    else if anyKeyword sample (["parere", "opinione legale", "quesito"].map String.toList) then
      (DocumentType.PARERE, 8/10)
    else if anyKeyword sample (["ricorso", "impugnazione", "gravame"].map String.toList) then
      (DocumentType.RICORSO, 9/10)
    else (DocumentType.UNKNOWN, 1/2)
  let jurisdiction : Option Text :=
    if containsSub sample "civile".toList || containsSub sample "c.c.".toList then
      some "civile".toList
    else if containsSub sample "penale".toList || containsSub sample "c.p.".toList then
      some "penale".toList
    else if containsSub sample "amministrativo".toList || containsSub sample "tar".toList then
      some "amministrativo".toList
    else none
  { document_type := tc.1, jurisdiction := jurisdiction, confidence := tc.2 }

-- ===========================================================================
-- Normalizer (filters.normalize_text)
-- ===========================================================================

/-- Space-or-tab test, models the regex class `[ \t]`. -/
def isSpaceTab (c : Char) : Bool := c == ' ' || c == '\t'

/-- Worker for `collapseSpaces`; the flag records whether the scanner is
inside a space/tab run whose single replacement space was already
emitted. -/
def csAux : Bool → Text → Text
  | _, [] => []
  | inRun, c :: cs =>
    if isSpaceTab c then
      (if inRun then csAux true cs else ' ' :: csAux true cs)
    else c :: csAux false cs

/-- Models `re.sub(r'[ \t]+', ' ', text)`: every maximal run of spaces and
tabs becomes a single space. -/
def collapseSpaces (t : Text) : Text := csAux false t

/-- Worker for `collapseAllWs` (same scanner over the full `\s` class). -/
def cawAux : Bool → Text → Text
  | _, [] => []
  | inRun, c :: cs =>
    if isPyWs c then
      (if inRun then cawAux true cs else ' ' :: cawAux true cs)
    else c :: cawAux false cs

/-- Models `re.sub(r'\s+', ' ', text)` (the `preserve_newlines=False`
branch). -/
def collapseAllWs (t : Text) : Text := cawAux false t

/-- Backtracking helper for the greedy `\s+` of the pattern `\n\s+\n`:
given the text after the opening newline, returns the remainder after the
last newline inside the maximal whitespace run, if any. -/
def grabAux : Text → Option Text
  | [] => none
  | c :: cs =>
    if isPyWs c then
      match grabAux cs with
      | some r => some r
      | none => if c == '\n' then some cs else none
    else none

/-- Match of `\s+\n` (with nonempty `\s+`, greedy) against the text that
follows an opening newline; returns the remainder after the match. -/
def nlTail : Text → Option Text
  | [] => none
  | c :: cs => if isPyWs c then grabAux cs else none

/-- Fuel-driven scanner for `re.sub(r'\n\s+\n', '\n\n', text)`: at each
newline it attempts the greedy match `\s+\n`, emits a double newline and
resumes after the match; otherwise it copies the character.  The fuel
(initially the input length) only makes the recursion structural: every
step consumes at least one input character. -/
def subNlF : Nat → Text → Text
  | 0, t => t
  | _ + 1, [] => []
  | fuel + 1, c :: cs =>
    if c == '\n' then
      match nlTail cs with
      | some rest => '\n' :: '\n' :: subNlF fuel rest
      | none => '\n' :: subNlF fuel cs
    else c :: subNlF fuel cs

/-- Models `re.sub(r'\n\s+\n', '\n\n', text)`. -/
def subNl (t : Text) : Text := subNlF t.length t

/-- True when the text starts with a space character. -/
def headSpace : Text → Bool
  | [] => false
  | c :: _ => c == ' '

/-- Normal form of the space collapser: no tab anywhere and no two adjacent
spaces. -/
def p1 : Text → Bool
  | [] => true
  | c :: cs => !(c == '\t') && !(c == ' ' && headSpace cs) && p1 cs

/-- Normal form of the newline scanner: no position admits a
`\n\s+\n` match. -/
def p2 : Text → Bool
  | [] => true
  | c :: cs => (if c == '\n' then (nlTail cs).isNone else true) && p2 cs

/-- No newline inside the leading whitespace run. -/
def noNlPre (l : Text) : Bool := !(l.takeWhile isPyWs).contains '\n'

/-- Whitespace pipeline of the default options of `normalize_text`:
collapse space runs, collapse blank-line runs, strip. -/
def wpipe (t : Text) : Text := pyStrip (subNl (collapseSpaces t))

/-- Models `filters.normalize_text`.  The NFC normalization performed by
`unicodedata.normalize('NFC', text)` is an external library call and is
passed in as the function parameter `nfc`. -/
def normalize_text (nfc : Text → Text)
    (lowercase remove_extra_whitespace normalize_unicode preserve_newlines : Bool)
    (text : Text) : Text :=
  if text = [] then text
  else
    let t1 := if normalize_unicode then nfc text else text
    let t2 :=
      if remove_extra_whitespace then
        if preserve_newlines then subNl (collapseSpaces t1)
        else collapseAllWs t1
      else t1
    let t3 := if lowercase then pyLower t2 else t2
    pyStrip t3

/-- NFC instantiation used by concrete evaluations: on the ASCII strings
appearing in them NFC is the identity.  General theorems quantify over the
`nfc` parameter instead. -/
def nfcId : Text → Text := id

-- ===========================================================================
-- Entity model (base_pipeline.EntityType / DetectedEntity)
-- ===========================================================================

/-- Models `base_pipeline.EntityType`. -/
inductive EntityType where
  | PERSON | ORGANIZATION | LOCATION | DATE | FISCAL_CODE | VAT_NUMBER
  | EMAIL | PHONE | ADDRESS | COURT | JUDGE | LAWYER | ID_CARD | PASSPORT
  | IBAN | OTHER
deriving DecidableEq, Repr

/-- Models the `.value` tag of each `EntityType` member. -/
def EntityType.value : EntityType → Text
  | .PERSON => "PERSON".toList
  | .ORGANIZATION => "ORG".toList
  | .LOCATION => "LOC".toList
  | .DATE => "DATE".toList
  | .FISCAL_CODE => "CF".toList
  | .VAT_NUMBER => "PIVA".toList
  | .EMAIL => "EMAIL".toList
  | .PHONE => "PHONE".toList
  | .ADDRESS => "ADDRESS".toList
  | .COURT => "COURT".toList
  | .JUDGE => "JUDGE".toList
  | .LAWYER => "LAWYER".toList
  | .ID_CARD => "ID_CARD".toList
  | .PASSPORT => "PASSPORT".toList
  | .IBAN => "IBAN".toList
  | .OTHER => "OTHER".toList

/-- Models `base_pipeline.DetectedEntity`; the field `stop` models the
Python field named `end` (a Lean keyword), `metadata` keeps only the
string-valued entries the modelled pipeline reads or writes. -/
structure DetectedEntity where
  text : Text
  type : EntityType
  start : Nat
  stop : Nat
  confidence : ℚ := 1
  metadata : List (Text × Text) := []
deriving DecidableEq, Repr

-- ===========================================================================
-- Remaining entity validators and the filter chain
-- ===========================================================================

/-- Character class `[a-zA-Z0-9._%+-]` of the email regex. -/
def emailLocalChar (c : Char) : Bool :=
  c.isAlpha || c.isDigit || c == '.' || c == '_' || c == '%' || c == '+' || c == '-'

/-- Character class `[a-zA-Z0-9.-]` of the email regex. -/
def emailDomainChar (c : Char) : Bool :=
  c.isAlpha || c.isDigit || c == '.' || c == '-'

/-- Models `filters.validate_email`: the anchored pattern
`[a-zA-Z0-9._%+-]+@[a-zA-Z0-9.-]+\.[a-zA-Z]{2,}` matches exactly when the
text splits as a nonempty local part, `@`, a nonempty domain part, and a
final all-letter label of length at least two after the last dot. -/
def validate_email (email : Text) : Bool :=
  let locl := email.takeWhile emailLocalChar
  if locl.length == 0 then false
  else
    match email.drop locl.length with
    | '@' :: dom =>
      let revd := dom.reverse
      let tldRev := revd.takeWhile fun c => c ≠ '.'
      match revd.drop tldRev.length with
      | '.' :: beforeRev =>
        2 ≤ tldRev.length && tldRev.all Char.isAlpha &&
        beforeRev.length ≠ 0 && beforeRev.all emailDomainChar
      | _ => false
    | _ => false

/-- Digit-run test `[0-9]{9,10}` used by the phone patterns. -/
def phoneDigits (t : Text) : Bool :=
  (t.length == 9 || t.length == 10) && t.all Char.isDigit

/-- Models `filters.validate_italian_phone`: strip `[\s\-()]` characters,
then accept `+39` or `0039` followed by 9-10 digits, or 9-10 bare digits. -/
def validate_italian_phone (phone : Text) : Bool :=
  let p := phone.filter fun c => !(isPyWs c || c == '-' || c == '(' || c == ')')
  (isPrefixB "+39".toList p && phoneDigits (p.drop 3)) ||
  (isPrefixB "0039".toList p && phoneDigits (p.drop 4)) ||
  phoneDigits p

/-- Models `filters.validate_entities`: keep an entity unless its type has a
validator that rejects its text. -/
def validate_entities (entities : List DetectedEntity) : List DetectedEntity :=
  entities.filter fun e =>
    match e.type with
    | .FISCAL_CODE => validate_italian_fiscal_code e.text
    | .VAT_NUMBER => validate_italian_vat e.text
    | .EMAIL => validate_email e.text
    | .PHONE => validate_italian_phone e.text
    | _ => true

/-- Sensitivity level per entity type, models the branch in
`filters.sensitivity_scorer` (values of the `SensitivityLevel` enum). -/
def sensitivityLevel (t : EntityType) : Text :=
  match t with
  | .FISCAL_CODE | .ID_CARD | .PASSPORT => "high".toList
  | .PERSON | .ADDRESS | .EMAIL | .PHONE => "medium".toList
  | .ORGANIZATION | .COURT => "low".toList
  | _ => "medium".toList

/-- Insert-or-update on the metadata association list, models Python
`dict.__setitem__`. -/
def metaSet (m : List (Text × Text)) (k v : Text) : List (Text × Text) :=
  match m with
  | [] => [(k, v)]
  | (k0, v0) :: rest =>
    if k0 = k then (k0, v) :: rest else (k0, v0) :: metaSet rest k v

/-- Models `filters.sensitivity_scorer`: decorate every entity with its
sensitivity level. -/
def sensitivity_scorer (entities : List DetectedEntity) : List DetectedEntity :=
  entities.map fun e =>
    { e with metadata := metaSet e.metadata "sensitivity_level".toList (sensitivityLevel e.type) }

/-- ASCII apostrophe (written by code point to keep the source plain). -/
def apos : Char := Char.ofNat 39

/-- Models `filters.LEGAL_FORMULAS`: each pattern is a literal (the class
in the first one holds the ASCII apostrophe twice, and the escaped dot is a
literal dot). -/
def LEGAL_FORMULAS : List Text :=
  ["ai sensi dell".toList ++ [apos] ++ "art.".toList,
   "in conformità a quanto previsto".toList,
   "così come disposto".toList,
   "nel rispetto di".toList,
   "in ottemperanza a".toList,
   "visto il".toList,
   "considerato che".toList,
   "ritenuto in fatto ed in diritto".toList]

/-- Context window of `filters.legal_pattern_matcher`: the lower-cased
slice `text[max(0, start - 50) : min(len(text), end + 50)]`. -/
def formulaWindow (text : Text) (e : DetectedEntity) : Text :=
  let cs := e.start - 50
  let ce := min text.length (e.stop + 50)
  pyLower ((text.drop cs).take (ce - cs))

/-- Models `filters.legal_pattern_matcher`: drop an entity when a legal
formula occurs in its context window. -/
def legal_pattern_matcher (text : Text) (entities : List DetectedEntity) :
    List DetectedEntity :=
  entities.filter fun e =>
    ! LEGAL_FORMULAS.any fun f => containsSub (formulaWindow text e) f

/-- Models `FilterChain.apply_entity_filters` with the filters the default
configuration registers, in registration order: `validate_entities`, then
`sensitivity_scorer`, then the context-aware `legal_pattern_matcher`. -/
def applyEntityFilters (text : Text) (entities : List DetectedEntity) :
    List DetectedEntity :=
  legal_pattern_matcher text (sensitivity_scorer (validate_entities entities))

-- ===========================================================================
-- Replacement strategies (strategies.DeterministicReplacer /
-- ConsistentReplacer / ReplacementStrategy.replace_all)
-- ===========================================================================

/-- State of a `DeterministicReplacer`: the `(type, lowered text)` map and
the per-type counters. -/
structure DetState where
  entity_map : List ((EntityType × Text) × Text) := []
  entity_counters : List (EntityType × Nat) := []
deriving DecidableEq, Repr

/-- Lookup in the entity map, models `dict.__getitem__`/`in`. -/
def mapFind : List ((EntityType × Text) × Text) → EntityType × Text → Option Text
  | [], _ => none
  | (k, v) :: rest, key => if k = key then some v else mapFind rest key

/-- Lookup in the counters, models `dict.__getitem__`/`in`. -/
def counterFind : List (EntityType × Nat) → EntityType → Option Nat
  | [], _ => none
  | (k, v) :: rest, key => if k = key then some v else counterFind rest key

/-- Insert-or-update on the counters. -/
def counterSet : List (EntityType × Nat) → EntityType → Nat → List (EntityType × Nat)
  | [], k, v => [(k, v)]
  | (k0, v0) :: rest, k, v =>
    if k0 = k then (k0, v) :: rest else (k0, v0) :: counterSet rest k v

/-- Index rendering of `DeterministicReplacer.replace`: letters A..Z for
index 1..26 of PERSON/ORGANIZATION when `use_letters_for_names`, decimal
digits otherwise (`chr(64 + index)` and `str(index)`). -/
def renderIndex (useLetters : Bool) (t : EntityType) (index : Nat) : Text :=
  if useLetters ∧ (t = .PERSON ∨ t = .ORGANIZATION) then
    (if index ≤ 26 then [Char.ofNat (64 + index)] else (Nat.repr index).toList)
  else (Nat.repr index).toList

/-- Models `DeterministicReplacer.replace` with the default format template,
which renders as the type tag, an underscore, and the index. -/
def detReplace (useLetters : Bool) (st : DetState) (e : DetectedEntity) :
    Text × DetState :=
  let key := (e.type, pyLower e.text)
  match mapFind st.entity_map key with
  | some r => (r, st)
  | none =>
    let index := (counterFind st.entity_counters e.type).getD 0 + 1
    let replacement := e.type.value ++ '_' :: renderIndex useLetters e.type index
    (replacement,
     { entity_map := (key, replacement) :: st.entity_map,
       entity_counters := counterSet st.entity_counters e.type index })

/-- State of a `ConsistentReplacer` wrapping a `DeterministicReplacer`
(the default configuration: strategy `deterministic`, consistent
replacement on). -/
structure ConsState where
  consistency_map : List ((EntityType × Text) × Text) := []
  base : DetState := {}
deriving DecidableEq, Repr

/-- Models `ConsistentReplacer.replace` over a deterministic base. -/
def consReplace (useLetters : Bool) (st : ConsState) (e : DetectedEntity) :
    Text × ConsState :=
  let key := (e.type, pyLower e.text)
  match mapFind st.consistency_map key with
  | some r => (r, st)
  | none =>
    let rb := detReplace useLetters st.base e
    (rb.1, { consistency_map := (key, rb.1) :: st.consistency_map, base := rb.2 })

/-- Stable descending insertion: an entity moves right past strictly larger
starts only, so entities with equal starts keep their original order. -/
def insertDesc (e : DetectedEntity) : List DetectedEntity → List DetectedEntity
  | [] => [e]
  | a :: as => if e.start < a.start then a :: insertDesc e as else e :: a :: as

/-- Models `sorted(entities, key=lambda e: e.start, reverse=True)`
(stable descending sort by start). -/
def sortByStartDesc : List DetectedEntity → List DetectedEntity
  | [] => []
  | e :: rest => insertDesc e (sortByStartDesc rest)

/-- Models `ReplacementStrategy.replace_all` for the consistent
deterministic strategy: walk the entities in descending start order and
splice `result_text[:start] + replacement + result_text[end:]`. -/
def replaceAllCons (useLetters : Bool) (st : ConsState) (text : Text)
    (entities : List DetectedEntity) : Text × ConsState :=
  (sortByStartDesc entities).foldl
    (fun acc e =>
      let r := consReplace useLetters acc.2 e
      (acc.1.take e.start ++ r.1 ++ acc.1.drop e.stop, r.2))
    (text, st)

-- ===========================================================================
-- Orchestrator (orchestrator.PipelineOrchestrator.process_document /
-- process_batch)
-- ===========================================================================

/-- Models `base_pipeline.PipelineResult` restricted to the fields the
claims read; wall-clock timing and the metadata bag are not modelled. -/
structure PipelineResultM where
  original_text : Text
  anonymized_text : Text
  entities : List DetectedEntity
  success : Bool
deriving DecidableEq, Repr

/-- Text filter installed by `_setup_filters` under the default
configuration: `normalize_text` with `lowercase=False`,
`remove_extra_whitespace=True`, `normalize_unicode=True` and the default
`preserve_newlines=True`. -/
def normalizeDefault (nfc : Text → Text) (t : Text) : Text :=
  normalize_text nfc false true true true t

/-- Models `PipelineOrchestrator.process_document` under the default
configuration (consistent deterministic strategy).  The detection engine is
external, so its output for the document is the parameter `detected`; the
orchestrator-owned strategy state is threaded explicitly and — as in the
source — no reset happens between calls.  Context detection only feeds the
unmodelled metadata bag. -/
def processDocument (nfc : Text → Text) (st : ConsState) (text : Text)
    (detected : List DetectedEntity) : PipelineResultM × ConsState :=
  let filtered_text := normalizeDefault nfc text
  let filtered_entities := applyEntityFilters filtered_text detected
  let ra : Text × ConsState :=
    if filtered_entities = [] then (filtered_text, st)
    else replaceAllCons true st filtered_text filtered_entities
  ({ original_text := text, anonymized_text := ra.1,
     entities := filtered_entities, success := true }, ra.2)

/-- Input document of `process_batch`: a Python dict whose `text` and
`document_id` keys may be missing (`none`), plus the engine output for the
document. -/
structure BatchDoc where
  text : Option Text
  document_id : Option Text
  detected : List DetectedEntity
deriving DecidableEq, Repr

/-- Models `orchestrator.BatchResult` restricted to the modelled fields. -/
structure BatchResultM where
  results : List PipelineResultM
  total_documents : Nat
  successful : Nat
  failed : Nat
  total_entities_detected : Nat
deriving DecidableEq, Repr

/-- Models `process_with_semaphore`: accessing a missing `text` or
`document_id` key raises a `KeyError` before `process_document` runs, which
`asyncio.gather(..., return_exceptions=True)` captures (`Except.error`). -/
def processWithSemaphore (nfc : Text → Text) (st : ConsState) (doc : BatchDoc) :
    Except Unit PipelineResultM × ConsState :=
  match doc.text, doc.document_id with
  | some t, some _ =>
    let r := processDocument nfc st t doc.detected
    (Except.ok r.1, r.2)
  | _, _ => (Except.error (), st)

/-- Models `asyncio.gather` over the batch: results are positional (input
order) regardless of completion order; the shared strategy state is
threaded in input order (interleaving affects only placeholder numbering,
which no ordering claim depends on). -/
def gatherBatch (nfc : Text → Text) : ConsState → List BatchDoc →
    List (Except Unit PipelineResultM) × ConsState
  | st, [] => ([], st)
  | st, d :: ds =>
    let r := processWithSemaphore nfc st d
    let rest := gatherBatch nfc r.2 ds
    (r.1 :: rest.1, rest.2)

/-- Models the collection loop of `process_batch`: exceptions are counted
as failed but produce no entry in `all_results`; pipeline results are kept
in order and counted by their success flag. -/
def collectResults : List (Except Unit PipelineResultM) →
    List PipelineResultM × Nat × Nat
  | [] => ([], 0, 0)
  | Except.error _ :: rest =>
    let r := collectResults rest
    (r.1, r.2.1, r.2.2 + 1)
  | Except.ok pr :: rest =>
    let r := collectResults rest
    (pr :: r.1,
     (if pr.success then r.2.1 + 1 else r.2.1),
     (if pr.success then r.2.2 else r.2.2 + 1))

/-- Models `PipelineOrchestrator.process_batch`. -/
def process_batch (nfc : Text → Text) (st : ConsState) (docs : List BatchDoc) :
    BatchResultM × ConsState :=
  let g := gatherBatch nfc st docs
  let c := collectResults g.1
  ({ results := c.1,
     total_documents := docs.length,
     successful := c.2.1,
     failed := c.2.2,
     total_entities_detected :=
       (c.1.filter fun r => r.success).foldl (fun a r => a + r.entities.length) 0 },
   g.2)

/-- Placeholder sequence runner used to state the deterministic-strategy
claims: the placeholders `DeterministicReplacer.replace` yields on a list
of entities, threading its state. -/
def detReplaceList (useLetters : Bool) (st : DetState) :
    List DetectedEntity → List Text
  | [] => []
  | e :: rest =>
    let r := detReplace useLetters st e
    r.1 :: detReplaceList useLetters r.2 rest

/-- Placeholder the deterministic strategy assigns to the n-th first
occurrence of a type (1-indexed), per the default template. -/
def placeholderFor (useLetters : Bool) (t : EntityType) (n : Nat) : Text :=
  t.value ++ '_' :: renderIndex useLetters t n

-- ===========================================================================
-- Winner selection (benchmarking.selector.WinnerSelector)
-- ===========================================================================

/-- Models `models.benchmark_result.BenchmarkResult` restricted to the
fields `select_winner` reads.  The Decimal metric columns are exact
decimal values, modelled as rationals. -/
structure BenchmarkResult where
  engine : Text
  f1_score : ℚ
  precision : ℚ
  «recall» : ℚ
  p95_latency_ms : ℤ
deriving DecidableEq, Repr

/-- Number of binary digits of `n` (the first argument is fuel; `bits`
passes `n` itself, which bounds the number of halvings). -/
def bitsF : Nat → Nat → Nat
  | 0, _ => 0
  | _ + 1, 0 => 0
  | f + 1, n => bitsF f (n / 2) + 1

/-- Binary length of a natural number. -/
def bits (n : Nat) : Nat := bitsF n n

/-- Round `c / b` to an integer, half to even; the value represented by
the result is `m * 2 ^ e`. -/
def roundAt (c b : Nat) (e : Int) : Nat × Int :=
  let q := c / b
  let r := c % b
  if b < 2 * r then (q + 1, e)
  else if 2 * r < b then (q, e)
  else if q % 2 = 0 then (q, e) else (q + 1, e)

/-- The IEEE-754 binary64 value nearest to the fraction `n / d` (round to
nearest, ties to even), as mantissa and binary exponent: the scaling `k`
puts the quotient into `[2^52, 2^54)` and `roundAt` keeps 53 significant
bits.  The binary64 exponent range is not clamped: every quantity arising
in the selector is far inside the normal range. -/
def fround53 (n d : Nat) : Nat × Int :=
  if n = 0 then (0, 0)
  else
    let k : Int := (53 + (bits d : Int)) - (bits n : Int)
    let c := if 0 ≤ k then n <<< k.toNat else n
    let b := if 0 ≤ k then d else d <<< (-k).toNat
    if 2 ^ 53 ≤ c / b then roundAt c (2 * b) (1 - k) else roundAt c b (-k)

/-- The binary64 double nearest to a rational, as a rational; models the
Python float conversion `float(Decimal)` and the rounding step of every
float operation. -/
def roundD (x : ℚ) : ℚ :=
  let p := fround53 x.num.natAbs x.den
  (if x.num < 0 then -(p.1 : ℚ) else (p.1 : ℚ)) * 2 ^ p.2

/-- Binary64 addition: exact sum, then correctly-rounded. -/
def fladd (x y : ℚ) : ℚ := roundD (x + y)

/-- Binary64 multiplication: exact product, then correctly-rounded. -/
def flmul (x y : ℚ) : ℚ := roundD (x * y)

/-- Binary64 division: exact quotient, then correctly-rounded. -/
def fldiv (x y : ℚ) : ℚ := roundD (x / y)

/-- Models `WinnerSelector._normalize_latency` with the decay curve
`math.exp(-(lat - target)/target)` passed in as the parameter `expFn`
(an external math-library call); the source clamps it to [0, 1].  The
int-to-float conversions of the millisecond values are exact at these
magnitudes; Python true division is binary64 division. -/
def normalize_latency (expFn : ℚ → ℚ) (target lat : ℤ) : ℚ :=
  if lat ≤ target then 1
  else max 0 (min 1 (expFn (fldiv ((lat : ℚ) - (target : ℚ)) (target : ℚ))))

/-- Stand-in for `math.exp` in closed statements; every concrete input in
them keeps its latency at or below the target, so the decay branch that
would consume it is never taken. -/
def noDecay : ℚ → ℚ := fun _ => 0

/-- Models `WinnerSelector._calculate_score` in IEEE-754 binary64
arithmetic, as the source computes it: `float(Decimal)` conversions of
the metric columns, the default weights written as the doubles nearest
`0.5`, `0.3`, `0.1`, one rounding per product, and the left-to-right sum
`((f1c + latc) + pc) + rc` with one rounding per addition; default
latency target 500 ms. -/
def calculate_score (expFn : ℚ → ℚ) (r : BenchmarkResult) : ℚ :=
  let f1c := flmul (roundD r.f1_score) (roundD (1/2))
  let latc := flmul (normalize_latency expFn 500 r.p95_latency_ms) (roundD (3/10))
  let pc := flmul (roundD r.precision) (roundD (1/10))
  let rc := flmul (roundD r.«recall») (roundD (1/10))
  fladd (fladd (fladd f1c latc) pc) rc

/-- Insert-or-update on the score dict, models
`scores[result.engine] = score` on an insertion-ordered dict. -/
def upsertScore : List (Text × ℚ) → Text → ℚ → List (Text × ℚ)
  | [], k, v => [(k, v)]
  | (k0, v0) :: rest, k, v =>
    if k0 = k then (k0, v) :: rest else (k0, v0) :: upsertScore rest k v

/-- Models the score-building loop of `select_winner`. -/
def buildScores (expFn : ℚ → ℚ) (results : List BenchmarkResult) :
    List (Text × ℚ) :=
  results.foldl (fun acc r => upsertScore acc r.engine (calculate_score expFn r)) []

/-- Models Python `max(scores, key=scores.get)`: iterate the keys in dict
order keeping the current best, replacing it only on a strictly greater
value — ties keep the earlier key. -/
def pyMaxGo : Text → ℚ → List (Text × ℚ) → Text
  | k, _, [] => k
  | k, v, (k1, v1) :: rest => if v < v1 then pyMaxGo k1 v1 rest else pyMaxGo k v rest

/-- Entry point of the dict argmax (`none` for the empty dict). -/
def pyMaxKey : List (Text × ℚ) → Option Text
  | [] => none
  | (k, v) :: rest => some (pyMaxGo k v rest)

/-- Models `WinnerSelector.select_winner`; `none` models the `ValueError`
raised on an empty result list. -/
def select_winner (expFn : ℚ → ℚ) (results : List BenchmarkResult) : Option Text :=
  match results with
  | [] => none
  | _ :: _ => pyMaxKey (buildScores expFn results)

/-- Specification-side maximum of the score list (0 on the empty list,
which the callers exclude). -/
def scoresMax : List (Text × ℚ) → ℚ
  | [] => 0
  | (_, v) :: rest => rest.foldl (fun m p => max m p.2) v

/-- Specification-side reading of the tie policy the code implements: the
first key in dict order whose score attains the maximum. -/
def firstMaxKey (l : List (Text × ℚ)) : Option Text :=
  (l.find? fun p => decide (p.2 = scoresMax l)).map fun p => p.1

-- ===========================================================================
-- Cache keys (cache_manager.generate_cache_key), with a concrete SHA-256
-- ===========================================================================

/-- UTF-8 encoding of one character (models `str.encode()`). -/
def utf8Char (c : Char) : List Nat :=
  let n := c.toNat
  if n ≤ 127 then [n]
  else if n ≤ 2047 then [192 + (n >>> 6), 128 + (n &&& 63)]
  else if n ≤ 65535 then
    [224 + (n >>> 12), 128 + ((n >>> 6) &&& 63), 128 + (n &&& 63)]
  else
    [240 + (n >>> 18), 128 + ((n >>> 12) &&& 63), 128 + ((n >>> 6) &&& 63),
     128 + (n &&& 63)]

/-- UTF-8 encoding of a text as a byte list. -/
def utf8Encode : Text → List Nat
  | [] => []
  | c :: r => utf8Char c ++ utf8Encode r

/-- Truncation to 32 bits. -/
def mask32 (n : Nat) : Nat := n % 4294967296

/-- Right rotation of a 32-bit value.  Every argument it receives here is
already below 2^32, so the rotation is plain Euclidean arithmetic. -/
def rotr32 (x k : Nat) : Nat := x / 2 ^ k + x % 2 ^ k * 2 ^ (32 - k)

/-- FIPS 180-4 Σ₀. -/
def bigS0 (x : Nat) : Nat := rotr32 x 2 ^^^ rotr32 x 13 ^^^ rotr32 x 22

/-- FIPS 180-4 Σ₁. -/
def bigS1 (x : Nat) : Nat := rotr32 x 6 ^^^ rotr32 x 11 ^^^ rotr32 x 25

/-- FIPS 180-4 σ₀. -/
def smallS0 (x : Nat) : Nat := rotr32 x 7 ^^^ rotr32 x 18 ^^^ x / 8

/-- FIPS 180-4 σ₁. -/
def smallS1 (x : Nat) : Nat := rotr32 x 17 ^^^ rotr32 x 19 ^^^ x / 1024

/-- Choice mixer; the subtraction is 32-bit complement, as `x` is always
below 2^32 here. -/
def chOf (x y z : Nat) : Nat := (x &&& y) ^^^ ((4294967295 - x) &&& z)

/-- Majority mixer. -/
def majOf (x y z : Nat) : Nat := (x &&& y) ^^^ (x &&& z) ^^^ (y &&& z)

/-- SHA-256 round constants, in decimal. -/
def shaK : List Nat :=
  [1116352408, 1899447441, 3049323471, 3921009573, 961987163,
   1508970993, 2453635748, 2870763221, 3624381080, 310598401,
   607225278, 1426881987, 1925078388, 2162078206, 2614888103,
   3248222580, 3835390401, 4022224774, 264347078, 604807628,
   770255983, 1249150122, 1555081692, 1996064986, 2554220882,
   2821834349, 2952996808, 3210313671, 3336571891, 3584528711,
   113926993, 338241895, 666307205, 773529912, 1294757372,
   1396182291, 1695183700, 1986661051, 2177026350, 2456956037,
   2730485921, 2820302411, 3259730800, 3345764771, 3516065817,
   3600352804, 4094571909, 275423344, 430227734, 506948616,
   659060556, 883997877, 958139571, 1322822218, 1537002063,
   1747873779, 1955562222, 2024104815, 2227730452, 2361852424,
   2428436474, 2756734187, 3204031479, 3329325298]

/-- SHA-256 chaining state. -/
structure HS where
  a : Nat
  b : Nat
  c : Nat
  d : Nat
  e : Nat
  f : Nat
  g : Nat
  h : Nat

/-- SHA-256 initial chaining values. -/
def shaH0 : HS :=
  ⟨1779033703, 3144134277, 1013904242, 2773480762,
   1359893119, 2600822924, 528734635, 1541459225⟩

/-- One compression round; `kw` is the round constant already added to the
schedule word. -/
def shaRound (s : HS) (kw : Nat) : HS :=
  let t1 := mask32 (s.h + bigS1 s.e + chOf s.e s.f s.g + kw)
  let t2 := mask32 (bigS0 s.a + majOf s.a s.b s.c)
  ⟨mask32 (t1 + t2), s.a, s.b, s.c, mask32 (s.d + t1), s.e, s.f, s.g⟩

/-- Big-endian base-256 digits of `v` on `k` bytes. -/
def bytesBE (k v : Nat) : List Nat :=
  (List.range k).map fun i => v / 256 ^ (k - 1 - i) % 256

/-- Merkle-Damgård padding: a 0x80 byte, zeros up to 56 mod 64, then the
bit length on eight big-endian bytes. -/
def padMsg (m : List Nat) : List Nat :=
  m ++ ([128] ++ List.replicate ((119 - m.length % 64) % 64) 0 ++
    bytesBE 8 (8 * m.length))

/-- Big-endian 32-bit words of a byte list. -/
def words32 : List Nat → List Nat
  | b3 :: b2 :: b1 :: b0 :: more =>
    (b3 <<< 24 ||| b2 <<< 16 ||| b1 <<< 8 ||| b0) :: words32 more
  | _ => []

/-- Message-schedule extension, carrying the words generated so far in
reverse order (the head is the most recent word). -/
def extendW : Nat → List Nat → List Nat
  | 0, acc => acc.reverse
  | n + 1, acc =>
    let t := mask32 (smallS1 (acc.getD 1 0) + acc.getD 6 0 +
      smallS0 (acc.getD 14 0) + acc.getD 15 0)
    extendW n (t :: acc)

/-- Compress one 64-byte block into the chaining state. -/
def shaBlock (s : HS) (block : List Nat) : HS :=
  let w := extendW 48 (words32 block).reverse
  let r := (shaK.zipWith (fun k x => mask32 (k + x)) w).foldl shaRound s
  ⟨mask32 (s.a + r.a), mask32 (s.b + r.b), mask32 (s.c + r.c),
   mask32 (s.d + r.d), mask32 (s.e + r.e), mask32 (s.f + r.f),
   mask32 (s.g + r.g), mask32 (s.h + r.h)⟩

/-- Fold over the 64-byte blocks; the first argument only bounds the
recursion depth and is passed the padded length. -/
def shaBlocks : Nat → HS → List Nat → HS
  | 0, s, _ => s
  | _, s, [] => s
  | n + 1, s, m => shaBlocks n (shaBlock s (m.take 64)) (m.drop 64)

/-- SHA-256 digest bytes of a byte list. -/
def sha256 (m : List Nat) : List Nat :=
  let p := padMsg m
  let s := shaBlocks p.length shaH0 p
  bytesBE 4 s.a ++ bytesBE 4 s.b ++ bytesBE 4 s.c ++ bytesBE 4 s.d ++
    bytesBE 4 s.e ++ bytesBE 4 s.f ++ bytesBE 4 s.g ++ bytesBE 4 s.h

/-- Lower-case hex digit, by table lookup. -/
def nibHex (n : Nat) : Char := "0123456789abcdef".toList.getD n '0'

/-- Models `.hexdigest()` on a byte list. -/
def hexDigest (bytes : List Nat) : Text :=
  bytes.foldr (fun b tl => nibHex (b / 16) :: nibHex (b % 16) :: tl) []

/-- Models the delimited concatenation
`key_data = text + bar + engine_name + bar + config_hash` (with `bar` the
pipe character) built by `generate_cache_key`. -/
def key_data (text engine_name config_hash : Text) : Text :=
  text ++ '|' :: engine_name ++ '|' :: config_hash

/-- Models `cache_manager.generate_cache_key`:
`sha256(key_data).hexdigest()[:16]` behind the fixed key namespace. -/
def generate_cache_key (text engine_name config_hash : Text) : Text :=
  "privacy:doc:".toList ++
    (hexDigest (sha256 (utf8Encode (key_data text engine_name config_hash)))).take 16

-- ===========================================================================
-- ===========================================================================
-- Theorems
-- ===========================================================================
-- ===========================================================================

/-- Length bound for the greedy backtracking helper. -/
theorem grabAux_length : ∀ {l r : Text}, grabAux l = some r → r.length < l.length := by
  intro l
  induction l with
  | nil => intro r h; simp [grabAux] at h
  | cons c cs ih =>
    intro r h
    simp only [grabAux] at h
    by_cases hw : isPyWs c
    · simp only [hw, if_true] at h
      rcases hg : grabAux cs with _ | r0
      · rw [hg] at h
        by_cases hn : c == '\n'
        · simp only [hn, if_true, Option.some.injEq] at h
          subst h; simp
        · simp [hn] at h
      · rw [hg] at h
        simp only [Option.some.injEq] at h
        subst h
        exact Nat.lt_trans (ih hg) (by simp)
    · simp [hw] at h

/-- Length bound for `nlTail`. -/
theorem nlTail_length : ∀ {l r : Text}, nlTail l = some r → r.length < l.length := by
  intro l r h
  cases l with
  | nil => simp [nlTail] at h
  | cons c cs =>
    simp only [nlTail] at h
    by_cases hw : isPyWs c
    · simp only [hw, if_true] at h
      exact Nat.lt_trans (grabAux_length h) (by simp)
    · simp [hw] at h

/-- Inserting a fresh key into the score dict appends it. -/
theorem upsertScore_append :
    ∀ (acc : List (Text × ℚ)) (k : Text) (v : ℚ),
      (∀ p ∈ acc, p.1 ≠ k) → upsertScore acc k v = acc ++ [(k, v)] := by
  intro acc k v h
  induction acc with
  | nil => rfl
  | cons p rest ih =>
    simp only [upsertScore]
    rw [if_neg (h p (by simp)), ih fun q hq => h q (by simp [hq])]
    simp

/-- With pairwise-distinct engine names the score dict is the score list in
input order. -/
theorem buildScores_eq_map (expFn : ℚ → ℚ) :
    ∀ (results : List BenchmarkResult) (acc : List (Text × ℚ)),
      ((acc.map fun p => p.1) ++ results.map fun r => r.engine).Nodup →
      results.foldl (fun a r => upsertScore a r.engine (calculate_score expFn r)) acc =
        acc ++ results.map fun r => (r.engine, calculate_score expFn r) := by
  intro results
  induction results with
  | nil => intro acc _; simp
  | cons r rs ih =>
    intro acc hnd
    have hfresh : ∀ p ∈ acc, p.1 ≠ r.engine := by
      intro p hp hcontra
      have hd := (List.nodup_append.mp hnd).2.2
      exact hd (a := r.engine) (hcontra ▸ List.mem_map_of_mem _ hp) (by simp)
    simp only [List.foldl_cons, List.map_cons]
    rw [upsertScore_append acc r.engine _ hfresh, ih (acc ++ [(r.engine, _)])]
    · simp
    · simp only [List.map_append, List.map_cons, List.map_nil]
      rw [List.append_assoc]
      simpa using hnd

/-- The initial value is a lower bound of the running maximum. -/
theorem le_scoresFold :
    ∀ (l : List (Text × ℚ)) (a b : ℚ), a ≤ b →
      a ≤ l.foldl (fun m p => max m p.2) b := by
  intro l
  induction l with
  | nil => intro a b h; simpa using h
  | cons p rest ih =>
    intro a b h
    simp only [List.foldl_cons]
    exact ih a _ (le_trans h (le_max_left _ _))

/-- The dict argmax returns the first key attaining the running maximum. -/
theorem pyMaxGo_find :
    ∀ (rest : List (Text × ℚ)) (k : Text) (v : ℚ),
      some (pyMaxGo k v rest) =
        (((k, v) :: rest).find? fun p => decide (p.2 = scoresMax ((k, v) :: rest))).map
          fun p => p.1 := by
  intro rest
  induction rest with
  | nil =>
    intro k v
    simp [pyMaxGo, scoresMax, List.find?]
  | cons p rest ih =>
    intro k v
    obtain ⟨k1, v1⟩ := p
    by_cases hlt : v < v1
    · have hmax : max v v1 = v1 := max_eq_right (le_of_lt hlt)
      have hMM : scoresMax ((k, v) :: (k1, v1) :: rest) =
          scoresMax ((k1, v1) :: rest) := by
        simp only [scoresMax, List.foldl_cons, hmax]
      have hvM : v < scoresMax ((k1, v1) :: rest) := by
        simp only [scoresMax]
        exact lt_of_lt_of_le hlt (le_scoresFold rest v1 v1 le_rfl)
      simp only [pyMaxGo, if_pos hlt]
      rw [show (fun p : Text × ℚ =>
            decide (p.2 = scoresMax ((k, v) :: (k1, v1) :: rest))) =
          (fun p : Text × ℚ => decide (p.2 = scoresMax ((k1, v1) :: rest))) from by
        funext q; rw [hMM]]
      rw [List.find?_cons_of_neg _ (by
        simp only [decide_eq_true_eq]
        exact ne_of_lt hvM)]
      exact ih k1 v1
    · have hle : v1 ≤ v := le_of_not_lt hlt
      have hmax : max v v1 = v := max_eq_left hle
      have hMM : scoresMax ((k, v) :: (k1, v1) :: rest) =
          scoresMax ((k, v) :: rest) := by
        simp only [scoresMax, List.foldl_cons, hmax]
      simp only [pyMaxGo, if_neg hlt]
      rw [show (fun p : Text × ℚ =>
            decide (p.2 = scoresMax ((k, v) :: (k1, v1) :: rest))) =
          (fun p : Text × ℚ => decide (p.2 = scoresMax ((k, v) :: rest))) from by
        funext q; rw [hMM]]
      rw [ih k v]
      by_cases hv : v = scoresMax ((k, v) :: rest)
      · rw [List.find?_cons_of_pos _ (by simp only [decide_eq_true_eq]; exact hv),
          List.find?_cons_of_pos _ (by simp only [decide_eq_true_eq]; exact hv)]
      · have hvM : v ≤ scoresMax ((k, v) :: rest) := by
          simp only [scoresMax]
          exact le_scoresFold rest v v le_rfl
        have hv1 : v1 ≠ scoresMax ((k, v) :: rest) := fun hcontra =>
          hv (le_antisymm hvM (hcontra ▸ hle))
        rw [List.find?_cons_of_neg _ (by simp only [decide_eq_true_eq]; exact hv),
          List.find?_cons_of_neg _ (by simp only [decide_eq_true_eq]; exact hv),
          List.find?_cons_of_neg _ (by simp only [decide_eq_true_eq]; exact hv1)]

/-- C9 (amended): `select_winner` returns the engine of the first result
(in input order) attaining the maximal weighted score; for every latency
model, every nonempty result list with pairwise-distinct engine names is
resolved this way — there is no tie-breaking by F1, latency or engine id. -/
theorem select_winner_first_max (expFn : ℚ → ℚ)
    (results : List BenchmarkResult) (hne : results ≠ [])
    (hnd : (results.map fun r => r.engine).Nodup) :
    select_winner expFn results =
      firstMaxKey (results.map fun r => (r.engine, calculate_score expFn r)) := by
  cases results with
  | nil => exact absurd rfl hne
  | cons r rs =>
    have hb := buildScores_eq_map expFn (r :: rs) [] (by simpa using hnd)
    simp only [select_winner, buildScores] at hb ⊢
    rw [hb]
    simp only [List.nil_append, List.map_cons, pyMaxKey]
    rw [pyMaxGo_find]
    rfl

/-- C9 witness: the amended theorem applied to a concrete two-engine list,
whose winner is the first engine of the tied pair. -/
theorem select_winner_first_max_witness :
    select_winner noDecay
      [{ engine := "a".toList, f1_score := 3/5, precision := 1, «recall» := 1,
         p95_latency_ms := 100 },
       { engine := "b".toList, f1_score := 1, precision := 0, «recall» := 0,
         p95_latency_ms := 100 }] =
      firstMaxKey
        ([{ engine := "a".toList, f1_score := 3/5, precision := 1, «recall» := 1,
            p95_latency_ms := 100 },
          { engine := "b".toList, f1_score := 1, precision := 0, «recall» := 0,
            p95_latency_ms := 100 }].map
          fun r => (r.engine, calculate_score noDecay r)) :=
  select_winner_first_max noDecay _ (by simp) (by decide)

set_option maxHeartbeats 1600000 in
/-- The binary64 rounding of the score computation is observable: for the
metric pairs below the exact weighted sums would tie at 4/5, but the
computed scores are `0.7999999999999999 = 7205759403792793/2^53` and
`0.8 = 3602879701896397/2^52`, so the code has no tie and picks engine b —
matching a hand trace of the Python floats. -/
theorem calculate_score_binary64_rounding :
    calculate_score noDecay
      { engine := "a".toList, f1_score := 3/5, precision := 1, «recall» := 1,
        p95_latency_ms := 100 } = 7205759403792793 / 2 ^ 53 ∧
    calculate_score noDecay
      { engine := "b".toList, f1_score := 1, precision := 0, «recall» := 0,
        p95_latency_ms := 100 } = 3602879701896397 / 2 ^ 52 ∧
    (7205759403792793 : ℚ) / 2 ^ 53 < 3602879701896397 / 2 ^ 52 := by
  have h0 : fround53 0 1 = (0, 0) := by decide
  have h1 : fround53 3 5 = (5404319552844595, -53) := by decide
  have h2 : fround53 1 2 = (4503599627370496, -53) := by decide
  have h3 : fround53 3 10 = (5404319552844595, -54) := by decide
  have h4 : fround53 1 10 = (7205759403792794, -56) := by decide
  have h5 : fround53 1 1 = (4503599627370496, -52) := by decide
  have h6 : fround53 5404319552844595 18014398509481984 = (5404319552844595, -54) := by
    decide
  have h7 : fround53 3602879701896397 36028797018963968 = (7205759403792794, -56) := by
    decide
  have h8 : fround53 5404319552844595 9007199254740992 = (5404319552844595, -53) := by
    decide
  have h9 : fround53 25220157913274777 36028797018963968 = (6305039478318694, -53) := by
    decide
  have h10 : fround53 28823037615171173 36028797018963968 = (7205759403792793, -53) := by
    decide
  have h11 : fround53 14411518807585587 18014398509481984 = (7205759403792794, -53) := by
    decide
  have h12 : fround53 3602879701896397 4503599627370496 = (7205759403792794, -53) := by
    decide
  refine ⟨?_, ?_, by norm_num⟩
  · norm_num [calculate_score, flmul, fladd, roundD, normalize_latency, noDecay, h0,
      h1, h2, h3, h4, h5, h6, h7, h8, h9, h10, h11, h12]
  · norm_num [calculate_score, flmul, fladd, roundD, normalize_latency, noDecay, h0,
      h1, h2, h3, h4, h5, h6, h7, h8, h9, h10, h11, h12]

/-- C9 counterexample: two engines with identical metrics — hence
identical computed scores, in binary64 exactly as in any arithmetic —
listed in reverse lexicographic order.  The claimed tie-breaking (higher
F1, then lower latency, then lexicographically smallest engine id) would
pick engine a; `select_winner` returns engine b, the first in input
order, because `max(scores, key=scores.get)` keeps the earlier key on
ties. -/
theorem select_winner_tie_returns_first :
    select_winner noDecay
      [{ engine := "b".toList, f1_score := 1, precision := 1, «recall» := 1,
         p95_latency_ms := 100 },
       { engine := "a".toList, f1_score := 1, precision := 1, «recall» := 1,
         p95_latency_ms := 100 }] = some "b".toList ∧
    calculate_score noDecay
      { engine := "b".toList, f1_score := 1, precision := 1, «recall» := 1,
        p95_latency_ms := 100 } =
      calculate_score noDecay
        { engine := "a".toList, f1_score := 1, precision := 1, «recall» := 1,
          p95_latency_ms := 100 } ∧
    List.Lex (fun x y => x < y) "a".toList "b".toList := by
  refine ⟨?_, rfl, List.Lex.rel (by decide)⟩
  have hs : calculate_score noDecay
      { engine := "b".toList, f1_score := 1, precision := 1, «recall» := 1,
        p95_latency_ms := 100 } =
      calculate_score noDecay
        { engine := "a".toList, f1_score := 1, precision := 1, «recall» := 1,
          p95_latency_ms := 100 } := rfl
  simp only [select_winner, buildScores, List.foldl, upsertScore, pyMaxKey, pyMaxGo,
    if_neg (by decide : ¬ ("b".toList = "a".toList))]
  rw [← hs, if_neg (lt_irrefl _)]

/-- Delimited concatenation written as an intercalation. -/
theorem key_data_eq_intercalate (t e c : Text) :
    key_data t e c = [('|' : Char)].intercalate [t, e, c] := by
  simp [key_data, List.intercalate]

/-- C5 (amended): the pre-hash content `key_data` is injective on triples
whose components are free of the pipe delimiter (config hashes are 8
lower-case hex characters, hence pipe-free); the fingerprint itself only
separates inputs up to collisions of the 64-bit truncated SHA-256, and —
as the counterexample shows — texts containing the delimiter can collide
exactly. -/
theorem key_data_injective (t1 e1 c1 t2 e2 c2 : Text)
    (ht1 : ('|' : Char) ∉ t1) (he1 : ('|' : Char) ∉ e1) (hc1 : ('|' : Char) ∉ c1)
    (ht2 : ('|' : Char) ∉ t2) (he2 : ('|' : Char) ∉ e2) (hc2 : ('|' : Char) ∉ c2)
    (h : key_data t1 e1 c1 = key_data t2 e2 c2) :
    t1 = t2 ∧ e1 = e2 ∧ c1 = c2 := by
  rw [key_data_eq_intercalate, key_data_eq_intercalate] at h
  have h1 : (([('|' : Char)].intercalate [t1, e1, c1]).splitOn '|') = [t1, e1, c1] :=
    List.splitOn_intercalate [t1, e1, c1] '|'
      (by
        intro l hl
        simp only [List.mem_cons, List.not_mem_nil, or_false] at hl
        rcases hl with rfl | rfl | rfl <;> assumption)
      (by simp)
  have h2 : (([('|' : Char)].intercalate [t2, e2, c2]).splitOn '|') = [t2, e2, c2] :=
    List.splitOn_intercalate [t2, e2, c2] '|'
      (by
        intro l hl
        simp only [List.mem_cons, List.not_mem_nil, or_false] at hl
        rcases hl with rfl | rfl | rfl <;> assumption)
      (by simp)
  have hsp : (([('|' : Char)].intercalate [t1, e1, c1]).splitOn '|') =
      (([('|' : Char)].intercalate [t2, e2, c2]).splitOn '|') := by rw [h]
  rw [h1, h2] at hsp
  simp only [List.cons.injEq, and_true] at hsp
  exact ⟨hsp.1, hsp.2.1, hsp.2.2⟩

/-- C5 witness: the amended injectivity applied to a concrete pipe-free
triple. -/
theorem key_data_injective_witness :
    "doc".toList = "doc".toList ∧ "spacy".toList = "spacy".toList ∧
      "0123abcd".toList = "0123abcd".toList :=
  key_data_injective "doc".toList "spacy".toList "0123abcd".toList
    "doc".toList "spacy".toList "0123abcd".toList
    (by decide) (by decide) (by decide) (by decide) (by decide) (by decide) rfl

/-- C5 counterexample: moving the pipe between the text and the engine name
gives two calls with different texts and different recognizer ids whose
delimited contents — hence fingerprints — coincide, so `generate_cache_key`
is not injective in the claimed sense. -/
theorem generate_cache_key_collision :
    "a|b".toList ≠ "a".toList ∧ "c".toList ≠ "b|c".toList ∧
    generate_cache_key "a|b".toList "c".toList "0123abcd".toList =
      generate_cache_key "a".toList "b|c".toList "0123abcd".toList := by
  refine ⟨by decide, by decide, ?_⟩
  have h : key_data "a|b".toList "c".toList "0123abcd".toList =
      key_data "a".toList "b|c".toList "0123abcd".toList := by decide
  unfold generate_cache_key
  rw [h]

/-- Updating a counter makes it readable back. -/
theorem counterFind_counterSet_self :
    ∀ (l : List (EntityType × Nat)) (k : EntityType) (v : Nat),
      counterFind (counterSet l k v) k = some v := by
  intro l k v
  induction l with
  | nil => simp [counterSet, counterFind]
  | cons p rest ih =>
    by_cases hk : p.1 = k
    · simp [counterSet, counterFind, hk]
    · simp only [counterSet, counterFind, hk, if_false, if_neg hk]
      exact ih

/-- State-generalized form of the deterministic placeholder sequence: from
a state whose counter for `K` reads `c` and whose map misses every entity,
the emitted placeholders are the consecutive indices `c+1, c+2, …`. -/
theorem detReplaceList_aux (K : EntityType) :
    ∀ (es : List DetectedEntity) (st : DetState) (c : Nat),
      (∀ e ∈ es, e.type = K) →
      (es.map fun e => pyLower e.text).Nodup →
      (∀ e ∈ es, mapFind st.entity_map (K, pyLower e.text) = none) →
      (counterFind st.entity_counters K).getD 0 = c →
      detReplaceList true st es =
        (List.range es.length).map fun i => placeholderFor true K (c + i + 1) := by
  intro es
  induction es with
  | nil => intro st c _ _ _ _; simp [detReplaceList]
  | cons e rest ih =>
    intro st c hK hnd hmap hctr
    have heK : e.type = K := hK e (by simp)
    have hme : mapFind st.entity_map (K, pyLower e.text) = none :=
      hmap e (by simp)
    have hkey : (e.type, pyLower e.text) = ((K, pyLower e.text) : EntityType × Text) := by
      rw [heK]
    have hnd2 : (pyLower e.text ∉ rest.map fun e => pyLower e.text) ∧
        (rest.map fun e => pyLower e.text).Nodup := by
      rw [List.map_cons, List.nodup_cons] at hnd
      exact hnd
    simp only [detReplaceList, detReplace, hkey, hme, heK, hctr]
    rw [List.length_cons, List.range_succ_eq_map, List.map_cons, List.map_map]
    refine congrArg₂ List.cons rfl ?_
    rw [ih _ (c + 1)]
    · apply List.map_congr_left
      intro i _
      simp only [Function.comp]
      congr 1
      omega
    · intro e1 h1; exact hK e1 (by simp [h1])
    · exact hnd2.2
    · intro e1 h1
      have hne : pyLower e.text ≠ pyLower e1.text := by
        intro hcontra
        exact hnd2.1 (by rw [hcontra]; exact List.mem_map_of_mem _ h1)
      simp only [mapFind]
      rw [if_neg (by simp [hne])]
      exact hmap e1 (by simp [h1])
    · rw [counterFind_counterSet_self]
      rfl

/-- C6: for the deterministic strategy with letters enabled and the default
template, the placeholders assigned to successive first-occurrence entities
of one kind `K` are the type tag joined with A, B, …, Z then 27, 28, …
when `K` is PERSON or ORGANIZATION, and with 1, 2, … for every other kind
(`placeholderFor` renders exactly that split). -/
theorem deterministic_placeholder_sequence (K : EntityType)
    (es : List DetectedEntity)
    (hK : ∀ e ∈ es, e.type = K)
    (hnd : (es.map fun e => pyLower e.text).Nodup) :
    detReplaceList true {} es =
      (List.range es.length).map fun i => placeholderFor true K (i + 1) := by
  have h := detReplaceList_aux K es {} 0 hK hnd
    (by intro e _; rfl) (by rfl)
  simpa using h

/-- C6 witness: two fresh PERSON entities receive PERSON_A and PERSON_B. -/
theorem deterministic_placeholder_sequence_witness :
    detReplaceList true {}
      [{ text := "aa".toList, type := .PERSON, start := 0, stop := 2 },
       { text := "bb".toList, type := .PERSON, start := 3, stop := 5 }] =
      ["PERSON_A".toList, "PERSON_B".toList] := by
  have h := deterministic_placeholder_sequence EntityType.PERSON
    [{ text := "aa".toList, type := .PERSON, start := 0, stop := 2 },
     { text := "bb".toList, type := .PERSON, start := 3, stop := 5 }]
    (by decide) (by decide)
  rw [h]
  decide

/-- Boolean prefix test agrees with `List.IsPrefix`. -/
theorem isPrefixB_iff : ∀ (sub hay : Text), isPrefixB sub hay = true ↔ sub <+: hay := by
  intro sub
  induction sub with
  | nil => intro hay; simp [isPrefixB]
  | cons a as ih =>
    intro hay
    cases hay with
    | nil =>
      simp only [isPrefixB, Bool.false_eq_true, false_iff]
      intro h
      simpa using h.length_le
    | cons b bs =>
      simp only [isPrefixB, Bool.and_eq_true, beq_iff_eq, List.cons_prefix_cons, ih bs]

/-- The substring test agrees with prefix-of-a-suffix. -/
theorem containsSub_iff :
    ∀ (hay sub : Text), containsSub hay sub = true ↔ ∃ i, sub <+: hay.drop i := by
  intro hay
  induction hay with
  | nil =>
    intro sub
    simp only [containsSub, isPrefixB_iff]
    constructor
    · intro h; exact ⟨0, h⟩
    · rintro ⟨i, h⟩; simpa using h
  | cons c rest ih =>
    intro sub
    simp only [containsSub, Bool.or_eq_true, isPrefixB_iff, ih]
    constructor
    · rintro (h | ⟨i, h⟩)
      · exact ⟨0, by simpa using h⟩
      · exact ⟨i + 1, by simpa using h⟩
    · rintro ⟨i, h⟩
      cases i with
      | zero => exact Or.inl (by simpa using h)
      | succ j => exact Or.inr ⟨j, by simpa using h⟩

/-- Core of the amended no-leakage statement: splicing a placeholder `p`
over the unique occurrence of `s` leaves a text with no occurrence of `s`,
provided `s` shares no character with `p` (so no occurrence can overlap the
placeholder or straddle a junction). -/
theorem no_straddle (t1 t2 s p : Text) (hs : s ≠ []) (hp : p ≠ [])
    (huniq : ∀ i < (t1 ++ s ++ t2).length, s <+: (t1 ++ s ++ t2).drop i → i = t1.length)
    (hd : ∀ c ∈ s, c ∉ p) :
    containsSub (t1 ++ p ++ t2) s = false := by
  have hns : 0 < s.length := List.length_pos.mpr hs
  have hnp : 0 < p.length := List.length_pos.mpr hp
  cases hcs : containsSub (t1 ++ p ++ t2) s with
  | false => rfl
  | true =>
    exfalso
    obtain ⟨i, hpre⟩ := (containsSub_iff _ _).1 hcs
    have hfit : i + s.length ≤ t1.length + p.length + t2.length := by
      have h1 := hpre.length_le
      simp only [List.length_drop, List.length_append] at h1
      omega
    by_cases hA : i + s.length ≤ t1.length
    · -- the occurrence would sit entirely inside t1
      have htake : s = (t1.drop i).take s.length := by
        have h1 : s = ((t1 ++ p ++ t2).drop i).take s.length :=
          List.prefix_iff_eq_take.mp hpre
        rw [List.append_assoc, List.drop_append_eq_append_drop,
          List.take_append_eq_append_take] at h1
        have hz1 : i - t1.length = 0 := by omega
        have hz2 : s.length - (t1.length - i) = 0 := by omega
        simpa [hz1, hz2] using h1
      have hocc : s <+: (t1 ++ s ++ t2).drop i := by
        rw [List.prefix_iff_eq_take, List.append_assoc,
          List.drop_append_eq_append_drop, List.take_append_eq_append_take]
        have hz1 : i - t1.length = 0 := by omega
        have hz2 : s.length - (t1.length - i) = 0 := by omega
        simpa [hz1, hz2] using htake
      have := huniq i (by simp only [List.length_append]; omega) hocc
      omega
    · by_cases hB : t1.length + p.length ≤ i
      · -- the occurrence would sit entirely inside t2
        have hdrop : (t1 ++ p ++ t2).drop i = t2.drop (i - (t1.length + p.length)) := by
          rw [List.drop_append_eq_append_drop,
            List.drop_eq_nil_of_le (by simp only [List.length_append]; omega)]
          simp only [List.length_append, List.nil_append]
        have hocc : s <+: (t1 ++ s ++ t2).drop
            (t1.length + s.length + (i - (t1.length + p.length))) := by
          have h2 : (t1 ++ s ++ t2).drop
              (t1.length + s.length + (i - (t1.length + p.length))) =
              t2.drop (i - (t1.length + p.length)) := by
            rw [List.drop_append_eq_append_drop,
              List.drop_eq_nil_of_le (by simp only [List.length_append]; omega)]
            simp only [List.length_append, List.nil_append]
            congr 1
            omega
          rw [h2, ← hdrop]
          exact hpre
        have hbound : t1.length + s.length + (i - (t1.length + p.length)) <
            (t1 ++ s ++ t2).length := by
          simp only [List.length_append]
          omega
        have := huniq _ hbound hocc
        omega
      · -- the occurrence overlaps the placeholder region: exhibit a shared
        -- character of s and p
        push_neg at hB
        have hi' : i < (t1 ++ p ++ t2).length := by
          simp only [List.length_append]; omega
        by_cases hC : t1.length ≤ i
        · -- the first character of s lands inside p
          have h0s : 0 < s.length := hns
          have hnp2 : i - t1.length < p.length := by omega
          have hchar : s.get ⟨0, h0s⟩ = (t1 ++ p ++ t2).get ⟨i, hi'⟩ := by
            show s[0] = (t1 ++ p ++ t2)[i]
            have hg := hpre.getElem (n := 0) h0s
            rw [hg, List.getElem_drop]
            congr 1
          have hinp : (t1 ++ p ++ t2).get ⟨i, hi'⟩ = p.get ⟨i - t1.length, hnp2⟩ := by
            show (t1 ++ p ++ t2)[i] = p[i - t1.length]
            rw [List.getElem_append_left (by simp only [List.length_append]; omega),
              List.getElem_append_right (by omega)]
          refine hd (s.get ⟨0, h0s⟩) ?_ ?_
          · show s[0] ∈ s
            exact List.getElem_mem h0s
          · rw [hchar, hinp]
            show p[i - t1.length] ∈ p
            exact List.getElem_mem hnp2
        · -- the character of s at offset t1.length - i lands on p's head
          push_neg at hC
          have hj : t1.length - i < s.length := by omega
          have hn1 : t1.length < (t1 ++ p ++ t2).length := by
            simp only [List.length_append]; omega
          have hchar : s.get ⟨t1.length - i, hj⟩ =
              (t1 ++ p ++ t2).get ⟨t1.length, hn1⟩ := by
            show s[t1.length - i] = (t1 ++ p ++ t2)[t1.length]
            have hg := hpre.getElem (n := t1.length - i) hj
            rw [hg, List.getElem_drop]
            congr 1
            omega
          have hinp : (t1 ++ p ++ t2).get ⟨t1.length, hn1⟩ = p.get ⟨0, hnp⟩ := by
            show (t1 ++ p ++ t2)[t1.length] = p[0]
            rw [List.getElem_append_left (by simp only [List.length_append]; omega),
              List.getElem_append_right (le_refl t1.length)]
            congr 1
            omega
          refine hd (s.get ⟨t1.length - i, hj⟩) ?_ ?_
          · show s[t1.length - i] ∈ s
            exact List.getElem_mem hj
          · rw [hchar, hinp]
            show p[0] ∈ p
            exact List.getElem_mem hnp

/-- C1 (amended): no-leakage holds for the spans process_document actually
replaces — for a fresh orchestrator and a single detected PERSON span
whose text occurs in the (already normalized) document only at the
detected position and shares no character with its placeholder, the
anonymized text contains no substring equal to the span text.  The
universal claim fails (see the counterexample): occurrences outside the
detected spans survive verbatim. -/
theorem process_document_single_span_no_leakage
    (t t1 t2 : Text) (e : DetectedEntity)
    (hnorm : normalizeDefault nfcId t = t)
    (htype : e.type = .PERSON)
    (hne : e.text ≠ [])
    (ht : t = t1 ++ e.text ++ t2)
    (hstart : e.start = t1.length)
    (hstop : e.stop = t1.length + e.text.length)
    (hformula : (LEGAL_FORMULAS.any fun f => containsSub (formulaWindow t e) f) = false)
    (huniq : ∀ i < t.length, e.text <+: t.drop i → i = t1.length)
    (hchars : ∀ c ∈ e.text, c ∉ "PERSON_A".toList) :
    (processDocument nfcId {} t [e]).1.success = true ∧
    containsSub (processDocument nfcId {} t [e]).1.anonymized_text e.text = false := by
  set e2 : DetectedEntity :=
    { e with metadata :=
        metaSet e.metadata "sensitivity_level".toList (sensitivityLevel e.type) } with he2
  have hval : validate_entities [e] = [e] := by
    simp [validate_entities, htype]
  have hsc : sensitivity_scorer [e] = [e2] := rfl
  have hform2 : (LEGAL_FORMULAS.any fun f => containsSub (formulaWindow t e2) f) = false :=
    hformula
  have hlpm : legal_pattern_matcher t [e2] = [e2] := by
    simp only [legal_pattern_matcher, List.filter_cons, hform2]
    simp
  have hfilters : applyEntityFilters t [e] = [e2] := by
    unfold applyEntityFilters
    rw [hval, hsc, hlpm]
  have hpa : EntityType.PERSON.value ++ '_' :: renderIndex true EntityType.PERSON 1 =
      "PERSON_A".toList := by decide
  have hrep : (replaceAllCons true {} t [e2]).1 =
      t.take e2.start ++ "PERSON_A".toList ++ t.drop e2.stop := by
    simp only [replaceAllCons, sortByStartDesc, insertDesc, List.foldl,
      consReplace, detReplace, mapFind, counterFind, Option.getD_none, htype, hpa]
  have htake : t.take e2.start = t1 := by
    rw [show e2.start = e.start from rfl, hstart, ht, List.append_assoc, List.take_left]
  have hdrop : t.drop e2.stop = t2 := by
    rw [show e2.stop = e.stop from rfl, hstop, ht, ← List.length_append, List.drop_left]
  have hanon : (processDocument nfcId {} t [e]).1.anonymized_text =
      t1 ++ "PERSON_A".toList ++ t2 := by
    show (let ft := normalizeDefault nfcId t
          let fe := applyEntityFilters ft [e]
          let ra : Text × ConsState := if fe = [] then (ft, {}) else replaceAllCons true {} ft fe
          ra.1) = _
    simp only [hnorm, hfilters]
    rw [if_neg (by simp)]
    rw [hrep, htake, hdrop]
  constructor
  · rfl
  · rw [hanon, ht] at *
    exact no_straddle t1 t2 e.text "PERSON_A".toList hne (by decide) huniq hchars

/-- C1 witness: the amended no-leakage theorem applied to the concrete
document km with its single PERSON span covering the whole text. -/
theorem process_document_single_span_no_leakage_witness :
    (processDocument nfcId {} "km".toList
        [{ text := "km".toList, type := .PERSON, start := 0, stop := 2 }]).1.success = true ∧
    containsSub
        (processDocument nfcId {} "km".toList
          [{ text := "km".toList, type := .PERSON, start := 0, stop := 2 }]).1.anonymized_text
        "km".toList = false :=
  process_document_single_span_no_leakage "km".toList [] []
    { text := "km".toList, type := .PERSON, start := 0, stop := 2 }
    (by decide) rfl (by decide) (by decide) rfl (by decide) (by decide)
    (by decide) (by decide)

/-- C1 counterexample: on the input text made of the two-character word ab
twice, with the engine detecting only the first occurrence as a PERSON, the
successful result keeps a span with text ab while the anonymized text
PERSON_A ab still contains ab — process_document does not guarantee
no-leakage for occurrences outside the detected spans. -/
theorem process_document_leaks :
    (processDocument nfcId {} "ab ab".toList
        [{ text := "ab".toList, type := .PERSON, start := 0, stop := 2 }]).1.success = true ∧
    ((processDocument nfcId {} "ab ab".toList
        [{ text := "ab".toList, type := .PERSON, start := 0, stop := 2 }]).1.entities.map
        fun e => e.text) = ["ab".toList] ∧
    (processDocument nfcId {} "ab ab".toList
        [{ text := "ab".toList, type := .PERSON, start := 0, stop := 2 }]).1.anonymized_text =
      "PERSON_A ab".toList ∧
    containsSub "PERSON_A ab".toList "ab".toList = true := by
  decide

/-- C2: the replacement-strategy state is not reset between documents.
Processing the document Luigi Bianchi on a fresh orchestrator yields
PERSON_A, but processing it after the document Mario Rossi yields PERSON_B:
the counters (and map) of the shared strategy carry over because
`process_document` never calls `reset`, contradicting the strategies' own
documentation ("call between documents"). -/
theorem process_document_state_carries_over :
    (processDocument nfcId
        ((processDocument nfcId {} "Mario Rossi".toList
          [{ text := "Mario Rossi".toList, type := .PERSON, start := 0, stop := 11 }]).2)
        "Luigi Bianchi".toList
        [{ text := "Luigi Bianchi".toList, type := .PERSON, start := 0, stop := 13 }]).1.anonymized_text =
      "PERSON_B".toList ∧
    (processDocument nfcId {} "Luigi Bianchi".toList
        [{ text := "Luigi Bianchi".toList, type := .PERSON, start := 0, stop := 13 }]).1.anonymized_text =
      "PERSON_A".toList := by
  decide

/-- C4 counterexample: a batch of two documents where the first lacks the
`text` key returns a result list of length one — the exception is counted
as failed but dropped from `results`, so the output is not one-to-one with
the input and position 0 holds the second document's result. -/
theorem process_batch_drops_exceptions :
    (process_batch nfcId {}
        [{ text := none, document_id := some "d0".toList, detected := [] },
         { text := some "x".toList, document_id := some "d1".toList, detected := [] }]).1.results.length = 1 ∧
    (process_batch nfcId {}
        [{ text := none, document_id := some "d0".toList, detected := [] },
         { text := some "x".toList, document_id := some "d1".toList, detected := [] }]).1.total_documents = 2 ∧
    ((process_batch nfcId {}
        [{ text := none, document_id := some "d0".toList, detected := [] },
         { text := some "x".toList, document_id := some "d1".toList, detected := [] }]).1.results.map
        fun r => r.original_text) = ["x".toList] ∧
    (process_batch nfcId {}
        [{ text := none, document_id := some "d0".toList, detected := [] },
         { text := some "x".toList, document_id := some "d1".toList, detected := [] }]).1.failed = 1 := by
  decide

/-- Gather-then-collect preserves the input order and drops nothing when
every document has its required keys. -/
theorem gather_collect_order (nfc : Text → Text) :
    ∀ (docs : List BatchDoc) (st : ConsState),
      (∀ d ∈ docs, d.text.isSome ∧ d.document_id.isSome) →
      ((collectResults (gatherBatch nfc st docs).1).1.map fun r => r.original_text) =
        docs.map fun d => d.text.getD [] := by
  intro docs
  induction docs with
  | nil => intro st _; rfl
  | cons d ds ih =>
    intro st h
    obtain ⟨ht, hid⟩ := h d (by simp)
    rcases hdt : d.text with _ | t
    · rw [hdt] at ht; simp at ht
    rcases hdi : d.document_id with _ | i
    · rw [hdi] at hid; simp at hid
    simp only [gatherBatch, processWithSemaphore, hdt, hdi, collectResults,
      List.map_cons, hdt, Option.getD_some]
    refine congrArg₂ List.cons rfl ?_
    exact ih _ (fun d1 h1 => h d1 (by simp [h1]))

/-- C4 (amended): for every batch whose documents each carry the `text` and
`document_id` keys, `process_batch` returns results one-to-one with the
input and in input order (`results[i]` is the result for `documents[i]`,
completion order abstracted away by the positional gather); documents that
raise before `process_document` (for example from a missing key) are
instead dropped from `results`, not inserted as failures at their
positions. -/
theorem process_batch_preserves_order (nfc : Text → Text) (st : ConsState)
    (docs : List BatchDoc)
    (h : ∀ d ∈ docs, d.text.isSome ∧ d.document_id.isSome) :
    ((process_batch nfc st docs).1.results.map fun r => r.original_text) =
      docs.map fun d => d.text.getD [] := by
  unfold process_batch
  exact gather_collect_order nfc docs st h

/-- C4 witness: a two-document well-formed batch keeps both texts in input
order. -/
theorem process_batch_preserves_order_witness :
    ((process_batch nfcId {}
        [{ text := some "a".toList, document_id := some "d0".toList, detected := [] },
         { text := some "b".toList, document_id := some "d1".toList, detected := [] }]).1.results.map
        fun r => r.original_text) = ["a".toList, "b".toList] := by
  have h := process_batch_preserves_order nfcId {}
    [{ text := some "a".toList, document_id := some "d0".toList, detected := [] },
     { text := some "b".toList, document_id := some "d1".toList, detected := [] }]
    (by decide)
  rw [h]
  rfl

/-- C3: the scenario-S1 fiscal code RSSMRA85T10A562S is accepted by the
recognizer checksum (`ItalianCFRecognizer.validate_result`, whose `ODD_MAP`
is the standard table and yields check letter S), but rejected by the
filter-chain validator `filters.validate_italian_fiscal_code`, whose
odd-letter table `odd_chars` disagrees with the standard one and yields
check letter K.  The claim that both return True is therefore false on the
second validator; the recognizer (adopted by the specification as
authoritative) behaves as claimed. -/
theorem cf_RSSMRA85T10A562S_divergence :
    cfValidateResult "RSSMRA85T10A562S".toList = true ∧
    validate_italian_fiscal_code "RSSMRA85T10A562S".toList = false := by
  decide

/-- C7 counterexample: the 11-digit string 01234567897 starts with 0 and its
Luhn check digit matches, and `filters.validate_italian_vat` accepts it —
the claim that the VAT validator rejects every leading-zero string is false
for the filter-chain validator, which performs no leading-zero test. -/
theorem vat_filters_accepts_leading_zero :
    validate_italian_vat "01234567897".toList = true ∧
    "01234567897".toList.headD ' ' = '0' := by
  decide

/-- C7 (amended): only the recognizer rejects leading zeros — for every
11-digit string whose first character is 0,
`ItalianPIVARecognizer.validate_result` returns False regardless of the
check digit. -/
theorem piva_validate_result_rejects_leading_zero (s : Text)
    (hlen : s.length = 11) (hdig : s.all Char.isDigit = true)
    (h0 : s.head? = some '0') :
    pivaValidateResult s = some false := by
  cases s with
  | nil => simp at hlen
  | cons c rest =>
    simp only [List.head?_cons, Option.some.injEq] at h0
    subst h0
    simp [pivaValidateResult]

/-- C7 witness: the amended theorem applied to the concrete leading-zero
VAT string 01234567897. -/
theorem piva_validate_result_rejects_leading_zero_witness :
    pivaValidateResult "01234567897".toList = some false :=
  piva_validate_result_rejects_leading_zero "01234567897".toList
    (by decide) (by decide) (by decide)

/-- C10: jurisdiction classification is raw substring containment on the
lower-cased opening window — if the first 2000 characters (lower-cased)
contain the character sequence tar anywhere, and contain none of civile,
c.c., penale, c.p., then `detect_context` reports jurisdiction
amministrativo. -/
theorem detect_context_tar_amministrativo (text : Text)
    (h1 : containsSub (pyLower (text.take 2000)) "tar".toList = true)
    (h2 : containsSub (pyLower (text.take 2000)) "civile".toList = false)
    (h3 : containsSub (pyLower (text.take 2000)) "c.c.".toList = false)
    (h4 : containsSub (pyLower (text.take 2000)) "penale".toList = false)
    (h5 : containsSub (pyLower (text.take 2000)) "c.p.".toList = false) :
    (detect_context 2000 text).jurisdiction = some "amministrativo".toList := by
  unfold detect_context
  simp only [h1, h2, h3, h4, h5, Bool.or_self, Bool.or_true, Bool.false_or,
    Bool.or_false, if_true, if_false, Bool.false_eq_true, ite_false, ite_true]

/-- C10 witness: the word ritardo contains tar inside a longer word and none
of the other jurisdiction tokens, so its document context is
amministrativo. -/
theorem detect_context_tar_amministrativo_witness :
    (detect_context 2000 "ritardo".toList).jurisdiction =
      some "amministrativo".toList :=
  detect_context_tar_amministrativo "ritardo".toList
    (by decide) (by decide) (by decide) (by decide) (by decide)


theorem subNlF_congr : ∀ (f1 : Nat), ∀ (t : Text) (f2 : Nat),
    t.length ≤ f1 → t.length ≤ f2 → subNlF f1 t = subNlF f2 t := by
  intro f1
  induction f1 with
  | zero =>
    intro t f2 h1 _
    have ht : t = [] := List.eq_nil_of_length_eq_zero (Nat.le_zero.mp h1)
    subst ht
    cases f2 <;> rfl
  | succ f ih =>
    intro t f2 h1 h2
    cases t with
    | nil => cases f2 <;> rfl
    | cons c cs =>
      cases f2 with
      | zero => simp at h2
      | succ g =>
        simp only [List.length_cons, Nat.succ_le_succ_iff] at h1 h2
        by_cases hc : c = '\n'
        · subst hc
          cases hnt : nlTail cs with
          | some rest =>
            have hr : rest.length < cs.length := nlTail_length hnt
            show subNlF (f + 1) ('\n' :: cs) = subNlF (g + 1) ('\n' :: cs)
            simp +decide only [subNlF, hnt]
            rw [ih rest g (by omega) (by omega)]
            simp only [if_true]
          | none =>
            show subNlF (f + 1) ('\n' :: cs) = subNlF (g + 1) ('\n' :: cs)
            simp +decide only [subNlF, hnt]
            rw [ih cs g h1 h2]
        · have hc2 : (c == '\n') = false := by simpa using hc
          show subNlF (f + 1) (c :: cs) = subNlF (g + 1) (c :: cs)
          simp +decide only [subNlF, hc2]
          rw [ih cs g h1 h2]
          simp only [if_false]

theorem subNl_nil : subNl [] = [] := rfl

theorem subNl_cons_not_nl {c : Char} (cs : Text) (h : ¬ c = '\n') :
    subNl (c :: cs) = c :: subNl cs := by
  have hc2 : (c == '\n') = false := by simpa using h
  show subNlF (cs.length + 1) (c :: cs) = c :: subNl cs
  simp +decide only [subNlF, hc2]
  simp only [if_false]
  rfl

theorem subNl_cons_none (cs : Text) (h : nlTail cs = none) :
    subNl ('\n' :: cs) = '\n' :: subNl cs := by
  show subNlF (cs.length + 1) ('\n' :: cs) = '\n' :: subNl cs
  simp +decide only [subNlF, h]
  simp only [if_true]
  rfl

theorem subNl_cons_some (cs rest : Text) (h : nlTail cs = some rest) :
    subNl ('\n' :: cs) = '\n' :: '\n' :: subNl rest := by
  have hr : rest.length < cs.length := nlTail_length h
  show subNlF (cs.length + 1) ('\n' :: cs) = '\n' :: '\n' :: subNl rest
  simp +decide only [subNlF, h]
  simp only [if_true]
  rw [subNlF_congr cs.length rest rest.length (by omega) le_rfl]
  rfl

theorem p1_tail {c : Char} {cs : Text} (h : p1 (c :: cs) = true) : p1 cs = true := by
  simp only [p1, Bool.and_eq_true] at h
  exact h.2

theorem csAux_props : ∀ s : Text,
    p1 (csAux true s) = true ∧ p1 (csAux false s) = true ∧
    headSpace (csAux true s) = false := by
  intro s
  induction s with
  | nil => exact ⟨rfl, rfl, rfl⟩
  | cons c cs ih =>
    by_cases hst : isSpaceTab c = true
    · refine ⟨?_, ?_, ?_⟩
      · show p1 (csAux true (c :: cs)) = true
        simp only [csAux, hst, if_true]
        exact ih.1
      · show p1 (csAux false (c :: cs)) = true
        simp only [csAux, hst, if_true]
        simp only [p1, Bool.and_eq_true, Bool.not_eq_true']
        refine ⟨⟨by decide, ?_⟩, ih.1⟩
        simp [ih.2.2]
      · show headSpace (csAux true (c :: cs)) = false
        simp only [csAux, hst, if_true]
        exact ih.2.2
    · have hb : isSpaceTab c = false := by simpa using hst
      have hcc : (c == ' ') = false ∧ (c == '\t') = false := by
        simpa [isSpaceTab] using hb
      refine ⟨?_, ?_, ?_⟩
      · show p1 (csAux true (c :: cs)) = true
        simp only [csAux, hb, if_false, Bool.false_eq_true]
        simp only [p1, Bool.and_eq_true, Bool.not_eq_true', hcc.1, hcc.2]
        exact ⟨⟨trivial, by simp [hcc.1]⟩, ih.2.1⟩
      · show p1 (csAux false (c :: cs)) = true
        simp only [csAux, hb, if_false, Bool.false_eq_true]
        simp only [p1, Bool.and_eq_true, Bool.not_eq_true', hcc.1, hcc.2]
        exact ⟨⟨trivial, by simp [hcc.1]⟩, ih.2.1⟩
      · show headSpace (csAux true (c :: cs)) = false
        simp only [csAux, hb, if_false, Bool.false_eq_true]
        simp [headSpace, hcc.1]

theorem csAux_fix : ∀ s : Text, p1 s = true →
    csAux false s = s ∧ (headSpace s = false → csAux true s = s) := by
  intro s
  induction s with
  | nil => exact fun _ => ⟨rfl, fun _ => rfl⟩
  | cons c cs ih =>
    intro h
    have htail := p1_tail h
    by_cases hsp : c = ' '
    · subst hsp
      have hhs : headSpace cs = false := by
        simp only [p1, Bool.and_eq_true, Bool.not_eq_true'] at h
        simpa using h.1.2
      constructor
      · show csAux false (' ' :: cs) = ' ' :: cs
        simp only [csAux, isSpaceTab]
        simp only [beq_self_eq_true, Bool.true_or, if_true]
        rw [(ih htail).2 hhs]
        simp
      · intro hh
        simp [headSpace] at hh
    · by_cases htb : c = '\t'
      · exfalso
        subst htb
        simp [p1] at h
      · have hb : isSpaceTab c = false := by simp [isSpaceTab, hsp, htb]
        have h1 : csAux false cs = cs := (ih htail).1
        refine ⟨?_, fun _ => ?_⟩
        · show csAux false (c :: cs) = c :: cs
          simp [csAux, hb, h1]
        · show csAux true (c :: cs) = c :: cs
          simp [csAux, hb, h1]

theorem headSpace_subNl : ∀ s : Text, headSpace (subNl s) = headSpace s := by
  intro s
  cases s with
  | nil => rfl
  | cons c cs =>
    by_cases hc : c = '\n'
    · subst hc
      cases hnt : nlTail cs with
      | some rest => rw [subNl_cons_some cs rest hnt]; rfl
      | none => rw [subNl_cons_none cs hnt]; rfl
    · rw [subNl_cons_not_nl cs hc]; rfl

theorem grabAux_p1 : ∀ {l r : Text}, grabAux l = some r → p1 l = true → p1 r = true := by
  intro l
  induction l with
  | nil => intro r h _; simp [grabAux] at h
  | cons c cs ih =>
    intro r h hp
    simp only [grabAux] at h
    by_cases hw : isPyWs c
    · simp only [hw, if_true] at h
      rcases hg : grabAux cs with _ | r0
      · rw [hg] at h
        by_cases hn : c == '\n'
        · simp only [hn, if_true, Option.some.injEq] at h
          subst h
          exact p1_tail hp
        · simp [hn] at h
      · rw [hg] at h
        simp only [Option.some.injEq] at h
        subst h
        exact ih hg (p1_tail hp)
    · simp [hw] at h

theorem nlTail_p1 : ∀ {l r : Text}, nlTail l = some r → p1 l = true → p1 r = true := by
  intro l r h hp
  cases l with
  | nil => simp [nlTail] at h
  | cons c cs =>
    simp only [nlTail] at h
    by_cases hw : isPyWs c
    · simp only [hw, if_true] at h
      exact grabAux_p1 h (p1_tail hp)
    · simp [hw] at h

theorem p1_subNl_aux : ∀ (n : Nat) (s : Text), s.length ≤ n → p1 s = true →
    p1 (subNl s) = true := by
  intro n
  induction n with
  | zero =>
    intro s hl _
    have : s = [] := List.eq_nil_of_length_eq_zero (Nat.le_zero.mp hl)
    subst this
    rfl
  | succ n ih =>
    intro s hl hp
    cases s with
    | nil => rfl
    | cons c cs =>
      simp only [List.length_cons, Nat.succ_le_succ_iff] at hl
      by_cases hc : c = '\n'
      · subst hc
        cases hnt : nlTail cs with
        | some rest =>
          rw [subNl_cons_some cs rest hnt]
          have hrest : p1 rest = true := nlTail_p1 hnt (p1_tail hp)
          have hlen : rest.length ≤ n :=
            Nat.le_trans (Nat.le_of_lt (nlTail_length hnt)) hl
          simp only [p1, Bool.and_eq_true, Bool.not_eq_true']
          exact ⟨⟨by decide, by simp +decide⟩,
            ⟨⟨by decide, by simp +decide⟩, ih rest hlen hrest⟩⟩
        | none =>
          rw [subNl_cons_none cs hnt]
          simp only [p1, Bool.and_eq_true, Bool.not_eq_true']
          exact ⟨⟨by decide, by simp +decide⟩, ih cs hl (p1_tail hp)⟩
      · rw [subNl_cons_not_nl cs hc]
        simp only [p1, Bool.and_eq_true, Bool.not_eq_true'] at hp ⊢
        rw [headSpace_subNl]
        exact ⟨hp.1, ih cs hl hp.2⟩

theorem p1_subNl (s : Text) (hp : p1 s = true) : p1 (subNl s) = true :=
  p1_subNl_aux s.length s le_rfl hp

theorem p2_tail {c : Char} {cs : Text} (h : p2 (c :: cs) = true) : p2 cs = true := by
  simp only [p2, Bool.and_eq_true] at h
  exact h.2

theorem noNlPre_cons_ws {c : Char} (cs : Text) (hw : isPyWs c = true) :
    noNlPre (c :: cs) = (!(c == '\n') && noNlPre cs) := by
  by_cases hn : c = '\n'
  · subst hn
    simp [noNlPre, List.takeWhile_cons, hw, List.contains_cons]
  · have hn2 : (c == '\n') = false := by simpa using hn
    simp [noNlPre, List.takeWhile_cons, hw, List.contains_cons, hn2, Ne.symm hn]

theorem noNlPre_cons_not_ws {c : Char} (cs : Text) (hw : isPyWs c = false) :
    noNlPre (c :: cs) = true := by
  simp [noNlPre, List.takeWhile_cons, hw]

theorem grabAux_none_iff : ∀ l : Text, grabAux l = none ↔ noNlPre l = true := by
  intro l
  induction l with
  | nil => simp [grabAux, noNlPre]
  | cons c cs ih =>
    by_cases hw : isPyWs c
    · rw [noNlPre_cons_ws cs hw]
      simp only [grabAux, hw, if_true]
      rcases hg : grabAux cs with _ | r0
      · have hpre : noNlPre cs = true := (ih).mp hg
        by_cases hn : c == '\n'
        · simp [hn, hpre]
        · have hn2 : (c == '\n') = false := by simpa using hn
          simp [hn2, hpre]
      · have : ¬ noNlPre cs = true := fun hc => by
          rw [(ih).mpr hc] at hg
          exact Option.noConfusion hg
        have h2 : noNlPre cs = false := by simpa using this
        simp [h2]
    · have hw2 : isPyWs c = false := by simpa using hw
      rw [noNlPre_cons_not_ws cs hw2]
      simp [grabAux, hw2]

theorem noNlPre_nlTail_none {l : Text} (h : noNlPre l = true) : nlTail l = none := by
  cases l with
  | nil => rfl
  | cons c cs =>
    by_cases hw : isPyWs c
    · rw [noNlPre_cons_ws cs hw] at h
      simp only [Bool.and_eq_true] at h
      simp only [nlTail, hw, if_true]
      -- grabAux cs = none: the whitespace run of (c :: cs) extends that of cs
      apply (grabAux_none_iff cs).mpr
      -- noNlPre cs from h.2
      exact h.2
    · have hw2 : isPyWs c = false := by simpa using hw
      simp [nlTail, hw2]

theorem grabAux_some_noNlPre : ∀ {l r : Text}, grabAux l = some r → noNlPre r = true := by
  intro l
  induction l with
  | nil => intro r h; simp [grabAux] at h
  | cons c cs ih =>
    intro r h
    simp only [grabAux] at h
    by_cases hw : isPyWs c
    · simp only [hw, if_true] at h
      rcases hg : grabAux cs with _ | r0
      · rw [hg] at h
        by_cases hn : c == '\n'
        · simp only [hn, if_true, Option.some.injEq] at h
          subst h
          exact (grabAux_none_iff cs).mp hg
        · simp [hn] at h
      · rw [hg] at h
        simp only [Option.some.injEq] at h
        subst h
        exact ih hg
    · simp [hw] at h

theorem nlTail_some_noNlPre : ∀ {l r : Text}, nlTail l = some r → noNlPre r = true := by
  intro l r h
  cases l with
  | nil => simp [nlTail] at h
  | cons c cs =>
    simp only [nlTail] at h
    by_cases hw : isPyWs c
    · simp only [hw, if_true] at h
      exact grabAux_some_noNlPre h
    · simp [hw] at h

theorem noNlPre_subNl : ∀ l : Text, noNlPre l = true → noNlPre (subNl l) = true := by
  intro l
  induction l with
  | nil => intro _; rfl
  | cons c cs ih =>
    intro h
    by_cases hw : isPyWs c
    · rw [noNlPre_cons_ws cs hw] at h
      simp only [Bool.and_eq_true, Bool.not_eq_true'] at h
      have hc : ¬ c = '\n' := by
        intro hcc
        rw [hcc] at h
        simpa using h.1
      rw [subNl_cons_not_nl cs hc, noNlPre_cons_ws (subNl cs) hw]
      simp only [Bool.and_eq_true, Bool.not_eq_true']
      exact ⟨h.1, ih h.2⟩
    · have hw2 : isPyWs c = false := by simpa using hw
      have hc : ¬ c = '\n' := by
        intro hcc
        rw [hcc] at hw2
        simp [isPyWs] at hw2
      rw [subNl_cons_not_nl cs hc, noNlPre_cons_not_ws (subNl cs) hw2]

theorem nlTail_none_subNl : ∀ {cs : Text}, nlTail cs = none → nlTail (subNl cs) = none := by
  intro cs h
  cases cs with
  | nil => rfl
  | cons d ds =>
    by_cases hw : isPyWs d
    · simp only [nlTail, hw, if_true] at h
      have hpre : noNlPre ds = true := (grabAux_none_iff ds).mp h
      by_cases hd : d = '\n'
      · subst hd
        rw [subNl_cons_none ds (noNlPre_nlTail_none hpre)]
        simp only [nlTail, hw, if_true]
        exact (grabAux_none_iff (subNl ds)).mpr (noNlPre_subNl ds hpre)
      · rw [subNl_cons_not_nl ds hd]
        simp only [nlTail, hw, if_true]
        exact (grabAux_none_iff (subNl ds)).mpr (noNlPre_subNl ds hpre)
    · have hw2 : isPyWs d = false := by simpa using hw
      have hd : ¬ d = '\n' := by
        intro hcc
        rw [hcc] at hw2
        simp [isPyWs] at hw2
      rw [subNl_cons_not_nl ds hd]
      simp [nlTail, hw2]

theorem p2_subNl_aux : ∀ (n : Nat) (s : Text), s.length ≤ n → p2 (subNl s) = true := by
  intro n
  induction n with
  | zero =>
    intro s hl
    have : s = [] := List.eq_nil_of_length_eq_zero (Nat.le_zero.mp hl)
    subst this
    rfl
  | succ n ih =>
    intro s hl
    cases s with
    | nil => rfl
    | cons c cs =>
      simp only [List.length_cons, Nat.succ_le_succ_iff] at hl
      by_cases hc : c = '\n'
      · subst hc
        cases hnt : nlTail cs with
        | some rest =>
          rw [subNl_cons_some cs rest hnt]
          have hpre : noNlPre rest = true := nlTail_some_noNlPre hnt
          have hpre2 : noNlPre (subNl rest) = true := noNlPre_subNl rest hpre
          have hlen : rest.length ≤ n :=
            Nat.le_trans (Nat.le_of_lt (nlTail_length hnt)) hl
          simp only [p2, Bool.and_eq_true]
          refine ⟨?_, ?_, ?_⟩
          · have hn : nlTail ('\n' :: subNl rest) = none := by
              have hg : grabAux (subNl rest) = none :=
                (grabAux_none_iff (subNl rest)).mpr hpre2
              simp [nlTail, hg]
            rw [hn]
            decide
          · have hn : nlTail (subNl rest) = none := noNlPre_nlTail_none hpre2
            rw [hn]
            decide
          · exact ih rest hlen
        | none =>
          rw [subNl_cons_none cs hnt]
          simp only [p2, Bool.and_eq_true]
          refine ⟨?_, ih cs hl⟩
          rw [nlTail_none_subNl hnt]
          decide
      · rw [subNl_cons_not_nl cs hc]
        simp only [p2, Bool.and_eq_true]
        have hc2 : (c == '\n') = false := by simpa using hc
        refine ⟨by simp [hc2], ih cs hl⟩

theorem p2_subNl (s : Text) : p2 (subNl s) = true :=
  p2_subNl_aux s.length s le_rfl

theorem p2_fix : ∀ s : Text, p2 s = true → subNl s = s := by
  intro s
  induction s with
  | nil => intro _; rfl
  | cons c cs ih =>
    intro h
    by_cases hc : c = '\n'
    · subst hc
      have hnone : nlTail cs = none := by
        simp only [p2, Bool.and_eq_true, if_pos rfl] at h
        rcases hnt : nlTail cs with _ | r
        · rfl
        · rw [hnt] at h
          simp at h
      rw [subNl_cons_none cs hnone, ih (p2_tail h)]
    · rw [subNl_cons_not_nl cs hc, ih (p2_tail h)]

theorem headSpace_append_left {cs r : Text} (h : headSpace (cs ++ r) = false) :
    headSpace cs = false := by
  cases cs with
  | nil => rfl
  | cons d ds => simpa [headSpace] using h

theorem p1_append_right : ∀ (u v : Text), p1 (u ++ v) = true → p1 v = true := by
  intro u v h
  induction u with
  | nil => simpa using h
  | cons c cs ih => exact ih (p1_tail h)

theorem p1_append_left : ∀ (l r : Text), p1 (l ++ r) = true → p1 l = true := by
  intro l r h
  induction l with
  | nil => rfl
  | cons c cs ih =>
    simp only [List.cons_append, p1, Bool.and_eq_true, Bool.not_eq_true'] at h ⊢
    refine ⟨⟨h.1.1, ?_⟩, ih h.2⟩
    by_cases hsp : (c == ' ') = true
    · have := h.1.2
      rw [hsp, Bool.true_and] at this ⊢
      exact headSpace_append_left this
    · have hsp2 : (c == ' ') = false := by simpa using hsp
      rw [hsp2, Bool.false_and]

theorem noNlPre_append_left : ∀ (a r : Text), noNlPre (a ++ r) = true → noNlPre a = true := by
  intro a r h
  induction a with
  | nil => rfl
  | cons c cs ih =>
    by_cases hw : isPyWs c
    · rw [List.cons_append, noNlPre_cons_ws _ hw] at h
      rw [noNlPre_cons_ws _ hw]
      simp only [Bool.and_eq_true] at h ⊢
      exact ⟨h.1, ih h.2⟩
    · have hw2 : isPyWs c = false := by simpa using hw
      rw [noNlPre_cons_not_ws _ hw2]

theorem nlTail_none_append {a r : Text} (h : nlTail (a ++ r) = none) :
    nlTail a = none := by
  cases a with
  | nil => rfl
  | cons c cs =>
    by_cases hw : isPyWs c
    · simp only [List.cons_append, nlTail, hw, if_true] at h
      simp only [nlTail, hw, if_true]
      exact (grabAux_none_iff cs).mpr
        (noNlPre_append_left cs r ((grabAux_none_iff (cs ++ r)).mp h))
    · have hw2 : isPyWs c = false := by simpa using hw
      simp [nlTail, hw2]

theorem p2_append_left : ∀ (l r : Text), p2 (l ++ r) = true → p2 l = true := by
  intro l r h
  induction l with
  | nil => rfl
  | cons c cs ih =>
    simp only [List.cons_append, p2, Bool.and_eq_true] at h ⊢
    refine ⟨?_, ih h.2⟩
    by_cases hc : (c == '\n') = true
    · rw [if_pos hc] at h ⊢
      have h0 : nlTail (cs ++ r) = none := by simpa using h.1
      rw [nlTail_none_append h0]
      rfl
    · rw [if_neg hc]

theorem p2_append_right : ∀ (u v : Text), p2 (u ++ v) = true → p2 v = true := by
  intro u v h
  induction u with
  | nil => simpa using h
  | cons c cs ih => exact ih (p2_tail h)

theorem dropWhile_dropWhile (p : Char → Bool) :
    ∀ l : Text, (l.dropWhile p).dropWhile p = l.dropWhile p := by
  intro l
  induction l with
  | nil => rfl
  | cons c cs ih =>
    by_cases hp : p c
    · simp [List.dropWhile_cons, hp, ih]
    · have hp2 : p c = false := by simpa using hp
      simp [List.dropWhile_cons, hp2]

theorem lstrip_head_not_ws : ∀ l : Text,
    lstrip l = [] ∨ ∃ c cs, lstrip l = c :: cs ∧ isPyWs c = false := by
  intro l
  induction l with
  | nil => exact Or.inl rfl
  | cons c cs ih =>
    by_cases hw : isPyWs c
    · simpa [lstrip, List.dropWhile_cons, hw] using ih
    · have hw2 : isPyWs c = false := by simpa using hw
      exact Or.inr ⟨c, cs, by simp [lstrip, List.dropWhile_cons, hw2], hw2⟩

theorem rstrip_prefix (l : Text) : rstrip l <+: l := by
  obtain ⟨u, hu⟩ : l.reverse.dropWhile isPyWs <:+ l.reverse := List.dropWhile_suffix _
  refine ⟨u.reverse, ?_⟩
  have := congrArg List.reverse hu
  simpa [rstrip] using this

theorem lstrip_idem (l : Text) : lstrip (lstrip l) = lstrip l :=
  dropWhile_dropWhile isPyWs l

theorem rstrip_idem (l : Text) : rstrip (rstrip l) = rstrip l := by
  unfold rstrip
  rw [List.reverse_reverse, dropWhile_dropWhile]

theorem lstrip_rstrip_lstrip (l : Text) :
    lstrip (rstrip (lstrip l)) = rstrip (lstrip l) := by
  rcases lstrip_head_not_ws l with h | ⟨c, cs, hm, hw⟩
  · rw [h]
    rfl
  · rcases hpre : rstrip (lstrip l) with _ | ⟨d, ds⟩
    · rfl
    · obtain ⟨u, hu⟩ := rstrip_prefix (lstrip l)
      rw [hpre] at hu
      rw [hm] at hu
      have hd : d = c := by
        have := congrArg (fun t => t.headD ' ') hu
        simpa using this
      subst hd
      simp [lstrip, List.dropWhile_cons, hw]

theorem pyStrip_idem (l : Text) : pyStrip (pyStrip l) = pyStrip l := by
  show rstrip (lstrip (rstrip (lstrip l))) = rstrip (lstrip l)
  rw [lstrip_rstrip_lstrip, rstrip_idem]

theorem p1_pyStrip (l : Text) (h : p1 l = true) : p1 (pyStrip l) = true := by
  have h1 : p1 (lstrip l) = true := by
    obtain ⟨u, hu⟩ : lstrip l <:+ l := List.dropWhile_suffix _
    exact p1_append_right u _ (by rw [hu]; exact h)
  obtain ⟨u, hu⟩ := rstrip_prefix (lstrip l)
  exact p1_append_left _ u (by rw [show pyStrip l ++ u = lstrip l from hu]; exact h1)

theorem p2_pyStrip (l : Text) (h : p2 l = true) : p2 (pyStrip l) = true := by
  have h1 : p2 (lstrip l) = true := by
    obtain ⟨u, hu⟩ : lstrip l <:+ l := List.dropWhile_suffix _
    exact p2_append_right u _ (by rw [hu]; exact h)
  obtain ⟨u, hu⟩ := rstrip_prefix (lstrip l)
  exact p2_append_left _ u (by rw [show pyStrip l ++ u = lstrip l from hu]; exact h1)

theorem wpipe_idem (t : Text) : wpipe (wpipe t) = wpipe t := by
  have hp1 : p1 (wpipe t) = true :=
    p1_pyStrip _ (p1_subNl _ (csAux_props t).2.1)
  have hp2 : p2 (wpipe t) = true := p2_pyStrip _ (p2_subNl _)
  have h1 : collapseSpaces (wpipe t) = wpipe t := (csAux_fix _ hp1).1
  have h2 : subNl (wpipe t) = wpipe t := p2_fix _ hp2
  have h3 : pyStrip (wpipe t) = wpipe t := pyStrip_idem _
  show pyStrip (subNl (collapseSpaces (wpipe t))) = wpipe t
  rw [h1, h2, h3]

theorem normalize_default_eq (nfc : Text → Text) (x : Text) :
    normalize_text nfc false true true true x =
      if x = [] then x else wpipe (nfc x) := rfl

/-- C8: `normalize_text` is idempotent under the default options
(`lowercase=false`, `remove_extra_whitespace=true`, `normalize_unicode=true`,
`preserve_newlines=true`), provided the external NFC normalization fixes the
already-normalized outputs (NFC is idempotent, so its mathematical
specification satisfies the hypothesis). -/
theorem normalize_text_idempotent (nfc : Text → Text)
    (hnfc : ∀ s : Text, nfc (wpipe (nfc s)) = wpipe (nfc s)) (x : Text) :
    normalize_text nfc false true true true
        (normalize_text nfc false true true true x) =
      normalize_text nfc false true true true x := by
  rw [normalize_default_eq nfc x, normalize_default_eq]
  by_cases hx : x = []
  · simp [hx]
  · rw [if_neg hx]
    by_cases hy : wpipe (nfc x) = []
    · rw [if_pos hy]
    · rw [if_neg hy, hnfc, wpipe_idem]

theorem normalize_text_idempotent_witness :
    normalize_text nfcId false true true true
        (normalize_text nfcId false true true true
          "  Mario   Rossi \n\n  CF: RSSMRA85T10A562S  ".toList) =
      normalize_text nfcId false true true true
        "  Mario   Rossi \n\n  CF: RSSMRA85T10A562S  ".toList :=
  normalize_text_idempotent nfcId (fun _ => rfl) _

end LexeCore
